import Mathlib

/-!
# binfmt/binfmt_exec.c

A shallow embedding of `binfmt_copyargv` and `exec` of `binfmt/binfmt_exec.c`.

* Integers of type `size_t` are natural numbers reduced modulo `2 ^ sizeBits`.
* Kernel memory is a map from byte addresses to cells; a store outside the
  block it was allocated for is undefined behaviour and stops the run
  (`Stuck.outOfBounds`).
* The external collaborators (`kmm_zalloc`, `kmm_malloc`, `load_module`,
  `exec_module`, `schedule_unload`, ...) are oracles; every call is recorded,
  in program order, in a trace of events.
* The two pairs of configuration switches are Boolean parameters:
  `isolated` is `CONFIG_ARCH_ADDRENV && CONFIG_BUILD_KERNEL`, `hook` is
  `CONFIG_SCHED_ONEXIT && CONFIG_SCHED_HAVE_PARENT`.
-/

set_option linter.unusedVariables false

namespace BinfmtExec

/-! ## Constants -/

/-- The artificial limit on the number of entries of an argv[] list
(`#define MAX_EXEC_ARGS 256`). -/
def MAX_EXEC_ARGS : Nat := 256

/-- The value of `OK`: "Zero (OK) on sucess". -/
def OK : Int := 0

/-- The value of `ERROR`: "it returns -1 (ERROR)". -/
def ERROR : Int := -1

/-- The constants of the target that the source uses and does not define:
`sizeof(FAR char *)`, the width of `size_t`, `sizeof(struct binary_s)` and the
two errno values of `<errno.h>`. -/
structure Platform where
  ptrSize : Nat
  sizeBits : Nat
  binSize : Nat
  E2BIG : Int
  ENOMEM : Int

/-- The number of values of `size_t`. -/
def Platform.sizeMod (P : Platform) : Nat := 2 ^ P.sizeBits

/-- What every target guarantees: a pointer occupies at least one byte, errno
values are positive and `E2BIG` and `ENOMEM` are different errors. -/
def Platform.Valid (P : Platform) : Prop :=
  0 < P.ptrSize ∧ 0 < P.E2BIG ∧ 0 < P.ENOMEM ∧ P.E2BIG ≠ P.ENOMEM

instance (P : Platform) : Decidable P.Valid := by
  unfold Platform.Valid; infer_instance

/-- A 32-bit target with the errno values of NuttX. -/
def target32 : Platform := ⟨4, 32, 64, 7, 12⟩

/-! ## Memory -/

/-- The content of one byte of memory: nothing known, a data byte, or the
`k`-th byte of a stored pointer `v`. -/
inductive Cell where
  | undef
  | byte (b : UInt8)
  | frag (v : Nat) (k : Nat)
  deriving DecidableEq

/-- Memory: the cell at each byte address. -/
abbrev Mem := Nat → Cell

/-- An allocated block: `size` bytes from address `base`. -/
structure Block where
  base : Nat
  size : Nat

/-- The memory after the bytes `bs` are written from address `a` on. -/
def writeBytes (m : Mem) (a : Nat) (bs : List UInt8) : Mem :=
  fun x =>
    if a ≤ x then
      match bs[x - a]? with
      | some b => Cell.byte b
      | none => m x
    else m x

/-- The memory after the pointer `v` is written in the `psz` bytes from
address `a` on. -/
def writePtr (psz : Nat) (m : Mem) (a v : Nat) : Mem :=
  fun x => if a ≤ x ∧ x < a + psz then Cell.frag v (x - a) else m x

/-- Store the bytes `bs` from address `a` on; `none` when the range leaves the
block. -/
def storeBytes (blk : Block) (m : Mem) (a : Nat) (bs : List UInt8) : Option Mem :=
  if blk.base ≤ a ∧ a + bs.length ≤ blk.base + blk.size then some (writeBytes m a bs)
  else none

/-- Store the pointer `v` in the `psz` bytes from address `a` on; `none` when
the range leaves the block. -/
def storePtr (psz : Nat) (blk : Block) (m : Mem) (a v : Nat) : Option Mem :=
  if blk.base ≤ a ∧ a + psz ≤ blk.base + blk.size then some (writePtr psz m a v)
  else none

/-- Load a pointer: defined when the `psz` bytes from `a` on are the bytes, in
order, of one stored pointer. -/
def loadPtr (psz : Nat) (m : Mem) (a : Nat) : Option Nat :=
  match m a with
  | Cell.frag v 0 =>
    if (List.range psz).all (fun k => decide (m (a + k) = Cell.frag v k)) then some v
    else none
  | _ => none

/-- Read the null-terminated string at address `p` (without its terminator),
looking at no more than `fuel` bytes. -/
def readCStr (m : Mem) (p : Nat) (fuel : Nat) : Option (List UInt8) :=
  match fuel with
  | 0 => none
  | fuel + 1 =>
    match m p with
    | Cell.byte b => if b = 0 then some [] else (readCStr m (p + 1) fuel).map (b :: ·)
    | _ => none

/-! ## The caller's argument vector -/

/-- A string in the caller's memory is given by the bytes `s` stored at its
address, which a null byte follows; `strlen` counts up to the first null. -/
def strlen : List UInt8 → Nat
  | [] => 0
  | b :: bs => if b = 0 then 0 else strlen bs + 1

/-- The caller's `argv`: the pointer itself (`0` is NULL) and what is read
through it, `argv[i]` being NULL (`none`) or the address of a string. -/
structure ArgVec where
  addr : Nat
  entry : Nat → Option (List UInt8)

/-- The argument vector of a null-terminated list of strings at address `a`. -/
def ArgVec.ofList (a : Nat) (args : List (List UInt8)) : ArgVec :=
  ⟨a, fun i => args[i]?⟩

/-! ## The load record and the trace -/

/-- Modelled from the spec: the declaration of `struct binary_s` is in
`nuttx/binfmt/binfmt.h`. The fields are those the source accesses (pointers
are addresses, `0` is NULL) and one value `priv` for the fields the loader
owns. -/
structure binary_s where
  filename : Nat
  argv : Nat
  argbuffer : Nat
  exports : Nat
  nexports : Int
  priv : Nat
  deriving DecidableEq

/-- A call of a collaborator, with its arguments and what it answered. -/
inductive Event where
  | kmm_zalloc (size : Nat) (ret : Nat)
  | kmm_malloc (size : Nat) (ret : Nat)
  | load_module (bin : binary_s) (ret : Int) (errno : Int)
  | sched_lock
  | exec_module (bin : binary_s) (ret : Int) (errno : Int)
  | schedule_unload (pid : Int) (bin : binary_s) (ret : Int) (errno : Int)
  | sched_unlock
  | unload_module (bin : binary_s)
  | binfmt_freeargv (bin : binary_s)
  | kmm_free (ptr : Nat)
  | set_errno (err : Int)
  deriving DecidableEq

/-- Why a run has no result. -/
inductive Stuck where
  | outOfBounds
  | outOfFuel
  deriving DecidableEq

deriving instance DecidableEq for Except

/-! ## binfmt_copyargv -/

/-- How the counting loop ends. -/
inductive CountExit where
  | tooBig
  | done (argsize : Nat) (nargs : Nat)
  deriving DecidableEq

/-- The counting loop, lines 103-120:
`for (i = 0; argv[i]; i++) { argsize += strlen(argv[i]) + 1; nargs++; if (nargs > MAX_EXEC_ARGS) return -E2BIG; }`. -/
def countLoop (P : Platform) (argv : Nat → Option (List UInt8)) :
    Nat → Nat → Nat → Nat → Except Stuck CountExit
  | 0, _, _, _ => .error .outOfFuel
  | fuel + 1, i, argsize, nargs =>
    match argv i with
    | none => .ok (.done argsize nargs)
    | some s =>
      let argsize := (argsize + (strlen s + 1)) % P.sizeMod
      let nargs := nargs + 1
      if nargs > MAX_EXEC_ARGS then .ok .tooBig
      else countLoop P argv fuel (i + 1) argsize nargs

/-- The copying loop, lines 140-146:
`for (i = 0; argv[i]; i++) { bin->argv[i] = ptr; argsize = strlen(argv[i]) + 1; memcpy(ptr, argv[i], argsize); ptr += argsize; }`.
It returns the final `i`, the final `ptr` and the memory. -/
def copyLoop (P : Platform) (blk : Block) (binargv : Nat) (argv : Nat → Option (List UInt8)) :
    Nat → Nat → Nat → Mem → Except Stuck (Nat × Nat × Mem)
  | 0, _, _, _ => .error .outOfFuel
  | fuel + 1, i, ptr, m =>
    match argv i with
    | none => .ok (i, ptr, m)
    | some s =>
      match storePtr P.ptrSize blk m (binargv + i * P.ptrSize) ptr with
      | none => .error .outOfBounds
      | some m1 =>
        let argsize := (strlen s + 1) % P.sizeMod
        match storeBytes blk m1 ptr ((s ++ [0]).take argsize) with
        | none => .error .outOfBounds
        | some m2 => copyLoop P blk binargv argv fuel (i + 1) (ptr + argsize) m2

/-- What `binfmt_copyargv` leaves: its return value (or why there is none),
the record, the memory and the calls it made. -/
structure CopyResult where
  ret : Except Stuck Int
  bin : binary_s
  mem : Mem
  trace : List Event

/-- The body of `binfmt_copyargv` under
`CONFIG_ARCH_ADDRENV && CONFIG_BUILD_KERNEL`, lines 87-154. -/
def binfmt_copyargv_isolated (P : Platform) (kmm_malloc : Nat → Nat) (bin : binary_s)
    (mem : Mem) (argv : ArgVec) : CopyResult :=
  let bin := { bin with argv := 0, argbuffer := 0 }
  if argv.addr ≠ 0 then
    match countLoop P argv.entry (MAX_EXEC_ARGS + 1) 0 0 0 with
    | .error e => ⟨.error e, bin, mem, []⟩
    | .ok .tooBig => ⟨.ok (-P.E2BIG), bin, mem, []⟩
    | .ok (.done argsize nargs) =>
      if argsize > 0 then
        let argvsize := ((nargs + 1) * P.ptrSize) % P.sizeMod
        let total := (argvsize + argsize) % P.sizeMod
        let buf := kmm_malloc total
        let bin := { bin with argbuffer := buf }
        let tr := [Event.kmm_malloc total buf]
        if buf = 0 then ⟨.ok (-P.ENOMEM), bin, mem, tr⟩
        else
          let bin := { bin with argv := bin.argbuffer }
          let ptr := bin.argbuffer + argvsize
          let blk : Block := ⟨buf, total⟩
          match copyLoop P blk bin.argv argv.entry (MAX_EXEC_ARGS + 1) 0 ptr mem with
          | .error e => ⟨.error e, bin, mem, tr⟩
          | .ok (i, _, m) =>
            match storePtr P.ptrSize blk m (bin.argv + i * P.ptrSize) 0 with
            | none => ⟨.error .outOfBounds, bin, m, tr⟩
            | some m1 => ⟨.ok OK, bin, m1, tr⟩
      else ⟨.ok OK, bin, mem, []⟩
  else ⟨.ok OK, bin, mem, []⟩

/-- The body of `binfmt_copyargv` in the other configurations, lines 157-160:
`bin->argv = argv; return OK;`. -/
def binfmt_copyargv_borrow (bin : binary_s) (mem : Mem) (argv : ArgVec) : CopyResult :=
  ⟨.ok OK, { bin with argv := argv.addr }, mem, []⟩

/-- The function `binfmt_copyargv`, lines 84-162. -/
def binfmt_copyargv (P : Platform) (isolated : Bool) (kmm_malloc : Nat → Nat) (bin : binary_s)
    (mem : Mem) (argv : ArgVec) : CopyResult :=
  if isolated then binfmt_copyargv_isolated P kmm_malloc bin mem argv
  else binfmt_copyargv_borrow bin mem argv

/-! ## exec -/

/-- What a collaborator that takes the record answers: its return value, the
value `get_errno()` gives after the call, and the record as the call leaves
it. -/
structure Answer where
  ret : Int
  errno : Int
  bin : binary_s

/-- The collaborators of `exec`. `kmm_zalloc` and `kmm_malloc` answer the
address of the block, `0` for NULL. -/
structure Collab where
  kmm_zalloc : Nat → Nat
  kmm_malloc : Nat → Nat
  load_module : binary_s → Answer
  exec_module : binary_s → Answer
  schedule_unload : Int → binary_s → Answer

/-- What `exec` leaves: its return value (or why there is none), the calls it
made and the memory. -/
structure ExecResult where
  ret : Except Stuck Int
  trace : List Event
  mem : Mem

/-- A record of zero bytes, as `kmm_zalloc` and `memset(&bin, 0, ...)` give. -/
def zeroBin : binary_s := ⟨0, 0, 0, 0, 0, 0⟩

/-- The record after `bin->filename = filename; bin->exports = exports;
bin->nexports = nexports;` on a zeroed record, lines 223-225 and 296-299. -/
def initBin (filename exports : Nat) (nexports : Int) : binary_s :=
  { zeroBin with filename := filename, exports := exports, nexports := nexports }

/-- Label `errout`: `set_errno(err); return ERROR;`. -/
def errout (tr : List Event) (mem : Mem) (err : Int) : ExecResult :=
  ⟨.ok ERROR, tr ++ [Event.set_errno err], mem⟩

/-- Label `errout_with_bin`: `kmm_free(bin);`, then `errout`. -/
def errout_with_bin (binp : Nat) (tr : List Event) (mem : Mem) (err : Int) : ExecResult :=
  errout (tr ++ [Event.kmm_free binp]) mem err

/-- Label `errout_with_argv`: `binfmt_freeargv(bin);`, then `errout_with_bin`. -/
def errout_with_argv (bin : binary_s) (binp : Nat) (tr : List Event) (mem : Mem) (err : Int) :
    ExecResult :=
  errout_with_bin binp (tr ++ [Event.binfmt_freeargv bin]) mem err

/-- Label `errout_with_lock`: `sched_unlock(); unload_module(bin);`, then
`errout_with_argv`. -/
def errout_with_lock (bin : binary_s) (binp : Nat) (tr : List Event) (mem : Mem) (err : Int) :
    ExecResult :=
  errout_with_argv bin binp (tr ++ [Event.sched_unlock, Event.unload_module bin]) mem err

/-- Label `errout_with_module` of the second variant: `unload_module(&bin);`,
then `errout`. -/
def errout_with_module (bin : binary_s) (tr : List Event) (mem : Mem) (err : Int) : ExecResult :=
  errout (tr ++ [Event.unload_module bin]) mem err

/-- The body of `exec` under `CONFIG_SCHED_ONEXIT && CONFIG_SCHED_HAVE_PARENT`,
lines 206-287. The debug output of `bdbg` is left out; so is the `err` that is
read, and used for the debug output only, when `schedule_unload` fails. -/
def exec_hook (P : Platform) (isolated : Bool) (E : Collab) (mem : Mem) (filename : Nat)
    (argv : ArgVec) (exports : Nat) (nexports : Int) : ExecResult :=
  let binp := E.kmm_zalloc P.binSize
  let t0 := [Event.kmm_zalloc P.binSize binp]
  if binp = 0 then errout t0 mem P.ENOMEM
  else
    let bin := initBin filename exports nexports
    let c := binfmt_copyargv P isolated E.kmm_malloc bin mem argv
    let t1 := t0 ++ c.trace
    match c.ret with
    | .error e => ⟨.error e, t1, c.mem⟩
    | .ok ret =>
      if ret < 0 then errout_with_bin binp t1 c.mem (-ret)
      else
        let l := E.load_module c.bin
        let t2 := t1 ++ [Event.load_module c.bin l.ret l.errno]
        if l.ret < 0 then errout_with_argv l.bin binp t2 c.mem l.errno
        else
          let t3 := t2 ++ [Event.sched_lock]
          let x := E.exec_module l.bin
          let pid := x.ret
          let t4 := t3 ++ [Event.exec_module l.bin pid x.errno]
          if pid < 0 then errout_with_lock x.bin binp t4 c.mem x.errno
          else
            let s := E.schedule_unload pid x.bin
            let t5 := t4 ++ [Event.schedule_unload pid x.bin s.ret s.errno]
            ⟨.ok pid, t5 ++ [Event.sched_unlock], c.mem⟩

/-- The body of `exec` in the other configurations, lines 290-327. -/
def exec_reduced (E : Collab) (mem : Mem) (filename : Nat) (argv : ArgVec) (exports : Nat)
    (nexports : Int) : ExecResult :=
  let bin := initBin filename exports nexports
  let l := E.load_module bin
  let t1 := [Event.load_module bin l.ret l.errno]
  if l.ret < 0 then errout t1 mem l.errno
  else
    let x := E.exec_module l.bin
    let ret := x.ret
    let t2 := t1 ++ [Event.exec_module l.bin ret x.errno]
    if ret < 0 then errout_with_module x.bin t2 mem x.errno
    else ⟨.ok ret, t2, mem⟩

/-- The function `exec`, lines 202-329. -/
def exec (P : Platform) (isolated hook : Bool) (E : Collab) (mem : Mem) (filename : Nat)
    (argv : ArgVec) (exports : Nat) (nexports : Int) : ExecResult :=
  if hook then exec_hook P isolated E mem filename argv exports nexports
  else exec_reduced E mem filename argv exports nexports

/-! ## Calls of exec and their stages -/

/-- One call of `exec`: the target, the configuration, the collaborators, the
memory and the four arguments. -/
structure Call where
  P : Platform
  isolated : Bool
  hook : Bool
  E : Collab
  mem : Mem
  filename : Nat
  argv : ArgVec
  exports : Nat
  nexports : Int

/-- What the call leaves. -/
def Call.run (C : Call) : ExecResult :=
  exec C.P C.isolated C.hook C.E C.mem C.filename C.argv C.exports C.nexports

/-- Record allocation: the address `kmm_zalloc` answers. -/
def Call.recordPtr (C : Call) : Nat := C.E.kmm_zalloc C.P.binSize

/-- Argument transfer: what `binfmt_copyargv` leaves on the initial record. -/
def Call.copy (C : Call) : CopyResult :=
  binfmt_copyargv C.P C.isolated C.E.kmm_malloc (initBin C.filename C.exports C.nexports)
    C.mem C.argv

/-- The record that reaches the loader: the record after the transfer where
there is one, the initial record otherwise. -/
def Call.loadArg (C : Call) : binary_s :=
  if C.hook then C.copy.bin else initBin C.filename C.exports C.nexports

/-- Load: what `load_module` answers. -/
def Call.load (C : Call) : Answer := C.E.load_module C.loadArg

/-- Start: what `exec_module` answers on the loaded record. -/
def Call.start (C : Call) : Answer := C.E.exec_module C.load.bin

/-- Hook registration: what `schedule_unload` answers for the started task. -/
def Call.register (C : Call) : Answer := C.E.schedule_unload C.start.ret C.start.bin

/-- The stages before the load succeed: none in the reduced configuration;
record allocation and argument transfer in the exit-hook configuration. -/
def Call.Prepared (C : Call) : Prop :=
  C.hook = true → C.recordPtr ≠ 0 ∧ ∃ v, C.copy.ret = .ok v ∧ 0 ≤ v

/-- Every stage up to and including the start succeeds. -/
def Call.AllStagesSucceed (C : Call) : Prop :=
  C.Prepared ∧ 0 ≤ C.load.ret ∧ 0 ≤ C.start.ret

/-- The argument transfer, when the call reaches it, returns: its stores stay
inside the buffer it allocated. -/
def Call.Defined (C : Call) : Prop :=
  C.hook = true → C.recordPtr ≠ 0 → ∃ v, C.copy.ret = .ok v

/-- The values `exec` passed to `set_errno`, in order. -/
def errnoWritten (tr : List Event) : List Int :=
  tr.filterMap (fun ev => match ev with
    | Event.set_errno err => some err
    | _ => none)

/-- The events that tear a launch down: unload, release of the argument buffer,
release of the record. -/
def Event.isTeardown : Event → Bool
  | Event.unload_module _ => true
  | Event.binfmt_freeargv _ => true
  | Event.kmm_free _ => true
  | _ => false

/-- Calls of `unload_module`. -/
def Event.isUnload : Event → Bool
  | Event.unload_module _ => true
  | _ => false

/-- Calls of `schedule_unload`. -/
def Event.isScheduleUnload : Event → Bool
  | Event.schedule_unload _ _ _ _ => true
  | _ => false

/-- Calls of `exec_module`. -/
def Event.isStart : Event → Bool
  | Event.exec_module _ _ _ => true
  | _ => false

/-- Calls of `binfmt_freeargv`. -/
def Event.isFreeArgv : Event → Bool
  | Event.binfmt_freeargv _ => true
  | _ => false

/-- Calls of `kmm_free`. -/
def Event.isRecordFree : Event → Bool
  | Event.kmm_free _ => true
  | _ => false

/-- Calls of `load_module`. -/
def Event.isLoad : Event → Bool
  | Event.load_module _ _ _ => true
  | _ => false

/-- The same call with another answer of `schedule_unload`. -/
def Call.withRegister (C : Call) (f : Int → binary_s → Answer) : Call :=
  { C with E := { C.E with schedule_unload := f } }

/-- The preemption lock is balanced and confined in a trace: `sched_lock`
occurs at most once; `sched_unlock` occurs as often as `sched_lock`; a
`sched_lock` comes right after a `load_module` that succeeded and right before
an `exec_module`, and a `sched_unlock` follows it; a `sched_unlock` comes
after a `sched_lock` and after no unload and no release. -/
def LockDiscipline (tr : List Event) : Prop :=
  tr.count Event.sched_lock ≤ 1 ∧
  tr.count Event.sched_unlock = tr.count Event.sched_lock ∧
  (∀ pre post, tr = pre ++ Event.sched_lock :: post →
    (∃ pre' b ret e, pre = pre' ++ [Event.load_module b ret e] ∧ 0 ≤ ret) ∧
    (∃ b ret e post', post = Event.exec_module b ret e :: post') ∧
    Event.sched_unlock ∈ post) ∧
  (∀ pre post, tr = pre ++ Event.sched_unlock :: post →
    Event.sched_lock ∈ pre ∧ ∀ ev ∈ pre, ev.isTeardown = false)

/-- What an event is for the launch protocol: which collaborator is called
and, for `load_module` and `exec_module`, whether the call succeeded. -/
inductive Kind where
  | alloc
  | loadOk
  | loadFail
  | lock
  | startOk
  | startFail
  | hookReg
  | unlock
  | unload
  | freeArgv
  | freeRecord
  | setErrno
  deriving DecidableEq

/-- The kind of an event; a call of `load_module` or `exec_module` succeeded
when it returned a value that is not negative. -/
def Event.kind : Event → Kind
  | Event.kmm_zalloc _ _ => Kind.alloc
  | Event.kmm_malloc _ _ => Kind.alloc
  | Event.load_module _ ret _ => if 0 ≤ ret then Kind.loadOk else Kind.loadFail
  | Event.sched_lock => Kind.lock
  | Event.exec_module _ ret _ => if 0 ≤ ret then Kind.startOk else Kind.startFail
  | Event.schedule_unload _ _ _ _ => Kind.hookReg
  | Event.sched_unlock => Kind.unlock
  | Event.unload_module _ => Kind.unload
  | Event.binfmt_freeargv _ => Kind.freeArgv
  | Event.kmm_free _ => Kind.freeRecord
  | Event.set_errno _ => Kind.setErrno

/-- The calls that are passed the record. -/
def Kind.takesRecord : Kind → Bool
  | Kind.loadOk => true
  | Kind.loadFail => true
  | Kind.startOk => true
  | Kind.startFail => true
  | Kind.hookReg => true
  | Kind.unload => true
  | Kind.freeArgv => true
  | Kind.freeRecord => true
  | _ => false

/-- Each of `load_module`, `exec_module`, `schedule_unload` and
`unload_module` is called at most once. -/
def CalledAtMostOnce (ks : List Kind) : Prop :=
  ks.count Kind.loadOk + ks.count Kind.loadFail ≤ 1 ∧
  ks.count Kind.startOk + ks.count Kind.startFail ≤ 1 ∧
  ks.count Kind.hookReg ≤ 1 ∧
  ks.count Kind.unload ≤ 1

instance (ks : List Kind) : Decidable (CalledAtMostOnce ks) := by
  unfold CalledAtMostOnce; infer_instance

/-- A call is preceded by the calls it depends on: `exec_module` by a
`load_module` that succeeded, `schedule_unload` by an `exec_module` that
succeeded, `unload_module` by a `load_module` that succeeded and an
`exec_module` that failed. -/
def CalledInOrder (ks : List Kind) : Prop :=
  (∀ i, i < ks.length → (ks[i]? = some Kind.startOk ∨ ks[i]? = some Kind.startFail) →
    Kind.loadOk ∈ ks.take i) ∧
  (∀ i, i < ks.length → ks[i]? = some Kind.hookReg → Kind.startOk ∈ ks.take i) ∧
  (∀ i, i < ks.length → ks[i]? = some Kind.unload →
    Kind.loadOk ∈ ks.take i ∧ Kind.startFail ∈ ks.take i)

instance (ks : List Kind) : Decidable (CalledInOrder ks) := by
  unfold CalledInOrder; infer_instance

/-- After `kmm_free` of the record no call that is passed the record
follows. -/
def NothingAfterFree (ks : List Kind) : Prop :=
  ∀ i, i < ks.length → ks[i]? = some Kind.freeRecord →
    ∀ k ∈ ks.drop (i + 1), k.takesRecord = false

instance (ks : List Kind) : Decidable (NothingAfterFree ks) := by
  unfold NothingAfterFree; infer_instance

/-- The collaborators are called in protocol order. -/
def ProtocolOrder (ks : List Kind) : Prop :=
  CalledAtMostOnce ks ∧ CalledInOrder ks ∧ NothingAfterFree ks

instance (ks : List Kind) : Decidable (ProtocolOrder ks) := by
  unfold ProtocolOrder; infer_instance

/-! ## Sample inputs -/

/-- A memory of which nothing is known. -/
def blankMem : Mem := fun _ => Cell.undef

/-- A record with arbitrary content. -/
def staleBin : binary_s := ⟨11, 22, 33, 44, 5, 66⟩

/-- The bytes of the strings "true" and "-x". -/
def trueArgs : List (List UInt8) := [[116, 114, 117, 101], [45, 120]]

/-- An argument vector that is never terminated: every entry is the address
of an empty string. -/
def endlessArgv : ArgVec := ⟨64, fun _ => some []⟩

/-- Collaborators whose load, start and hook registration return the given
values; the record is allocated at 8192 and the argument buffer at 4096. -/
def sampleCollab (loadRet startRet hookRet : Int) : Collab :=
  ⟨fun _ => 8192, fun _ => 4096, fun b => ⟨loadRet, 2, { b with priv := 1 }⟩,
    fun b => ⟨startRet, 11, b⟩, fun _ b => ⟨hookRet, 12, b⟩⟩

/-- The launch of the file name at address 77 with the arguments "true" and
"-x" and an empty export table, on a 32-bit target. -/
def sampleCall (isolated hook : Bool) (E : Collab) : Call :=
  ⟨target32, isolated, hook, E, blankMem, 77, ArgVec.ofList 64 trueArgs, 0, 0⟩

/-- An argument vector with no argument: a non-null array whose first entry is
null. -/
def emptyArgv : ArgVec := ⟨64, fun _ => none⟩

/-- An argument list of 256 entries that all hold the address of one string of
2^24 - 1 bytes: with the terminators, 2^32 bytes of strings. -/
def aliasedArgs : List (List UInt8) := List.replicate 256 (List.replicate (2 ^ 24 - 1) 1)

/-- An argument list of 256 entries that all hold the address of one string of
2^24 bytes: with the terminators, 2^32 + 256 bytes of strings. -/
def overrunArgs : List (List UInt8) := List.replicate 256 (List.replicate (2 ^ 24) 1)

/-- An argument list of 128 entries that all hold the address of one string of
2^25 bytes: with the terminators, 2^32 + 128 bytes of strings. -/
def wrappedArgs : List (List UInt8) := List.replicate 128 (List.replicate (2 ^ 25) 1)

/-- The launch, in the isolated exit-hook configuration on a 32-bit target, of
the file name at address 77 with the 256 arguments of `overrunArgs`, every
collaborator succeeding. -/
def overrunCall : Call :=
  ⟨target32, true, true, sampleCollab 0 7 0, blankMem, 77, ArgVec.ofList 64 overrunArgs, 0, 0⟩

/-! ## Facts about strings and memory -/

/-- The bytes that a list of strings occupies, each with its terminator. -/
def strBytes (args : List (List UInt8)) : Nat :=
  (args.map (fun s => s.length + 1)).sum

/-- The `argsize` that the counting loop arrives at for a list of strings: the
sum of line 107 in `size_t`. -/
def countedSize (P : Platform) (args : List (List UInt8)) : Nat :=
  strBytes args % P.sizeMod

/-- The size that `binfmt_copyargv` passes to `kmm_malloc` for a list of
strings: `argvsize + argsize` of lines 128-129 in `size_t`. -/
def requestSize (P : Platform) (args : List (List UInt8)) : Nat :=
  (((args.length + 1) * P.ptrSize) % P.sizeMod + countedSize P args) % P.sizeMod

/-- The argument list `args` is copied to the buffer at `b`: the transfer `r`,
started on the memory `mem0`, made one request, of the size of the pointer
array and the strings together, which `b` answers; the record's argv and
argbuffer are `b`; entry `i` of the array at `b` is the address, behind the
array and the strings before it, of a copy of the `i`-th string; the entry
after the last string is null; and memory outside the buffer is as it was. -/
def CopiedTo (psz : Nat) (args : List (List UInt8)) (b : Nat) (r : CopyResult) (mem0 : Mem) :
    Prop :=
  b ≠ 0 ∧
  r.trace = [Event.kmm_malloc ((args.length + 1) * psz + strBytes args) b] ∧
  r.bin.argv = b ∧ r.bin.argbuffer = b ∧
  (∀ i (hi : i < args.length),
    loadPtr psz r.mem (b + i * psz)
      = some (b + (args.length + 1) * psz + strBytes (args.take i)) ∧
    ∀ fuel, args[i].length < fuel →
      readCStr r.mem (b + (args.length + 1) * psz + strBytes (args.take i)) fuel
        = some args[i]) ∧
  loadPtr psz r.mem (b + args.length * psz) = some 0 ∧
  (∀ x, (x < b ∨ b + ((args.length + 1) * psz + strBytes args) ≤ x) → r.mem x = mem0 x)

theorem strBytes_cons (s : List UInt8) (rest : List (List UInt8)) :
    strBytes (s :: rest) = s.length + 1 + strBytes rest := by
  simp [strBytes]

theorem strBytes_pos (args : List (List UInt8)) (h : 1 ≤ args.length) :
    0 < strBytes args := by
  cases args with
  | nil => simp at h
  | cons s rest => rw [strBytes_cons]; omega

theorem strlen_eq_length (s : List UInt8) (h : (0 : UInt8) ∉ s) : strlen s = s.length := by
  induction s with
  | nil => rfl
  | cons b bs ih =>
    simp only [List.mem_cons, not_or] at h
    have hb : b ≠ 0 := fun e => h.1 e.symm
    simp [strlen, hb, ih h.2]

theorem sizeMod_pos (P : Platform) : 0 < P.sizeMod := by
  unfold Platform.sizeMod; exact Nat.two_pow_pos _

/-- The counting loop over a null-terminated list of strings whose size does
not wrap: it ends at the terminator with the number of strings and their
bytes. -/
theorem countLoop_list (P : Platform) (argv : Nat → Option (List UInt8))
    (rest : List (List UInt8)) :
    ∀ (fuel i asz na : Nat),
      (∀ j, j ≤ rest.length → argv (i + j) = rest[j]?) →
      (∀ s ∈ rest, (0 : UInt8) ∉ s) →
      rest.length < fuel → na + rest.length ≤ MAX_EXEC_ARGS →
      asz + strBytes rest < P.sizeMod →
      countLoop P argv fuel i asz na
        = .ok (.done (asz + strBytes rest) (na + rest.length)) := by
  induction rest with
  | nil =>
    intro fuel i asz na harg _ hfuel _ _
    cases fuel with
    | zero => simp at hfuel
    | succ fuel =>
      have h0 := harg 0 (by simp)
      simp at h0
      simp [countLoop, h0, strBytes]
  | cons s rest ih =>
    intro fuel i asz na harg hnul hfuel hna hfit
    cases fuel with
    | zero => simp at hfuel
    | succ fuel =>
      have h0 := harg 0 (by simp)
      simp at h0
      have hs : strlen s = s.length := strlen_eq_length s (hnul s (by simp))
      rw [strBytes_cons] at hfit
      simp only [List.length_cons] at hfuel hna
      have hmod : (asz + (s.length + 1)) % P.sizeMod = asz + (s.length + 1) :=
        Nat.mod_eq_of_lt (by omega)
      have hle : ¬ (na + 1 > MAX_EXEC_ARGS) := by omega
      have hrec := ih fuel (i + 1) (asz + (s.length + 1)) (na + 1)
        (fun j hj => by
          have := harg (j + 1) (by simp; omega)
          simpa [Nat.add_assoc, Nat.add_comm 1 j] using this)
        (fun t ht => hnul t (by simp [ht]))
        (by omega) (by omega) (by omega)
      simp only [countLoop, h0, hs, hmod, hle, if_false, hrec, strBytes_cons, List.length_cons]
      congr 2 <;> omega

theorem writeBytes_out (m : Mem) (a : Nat) (bs : List UInt8) (x : Nat)
    (h : x < a ∨ a + bs.length ≤ x) : writeBytes m a bs x = m x := by
  unfold writeBytes
  by_cases hx : a ≤ x
  · have hnone : bs[x - a]? = none := List.getElem?_eq_none (by omega)
    simp [hx, hnone]
  · simp [hx]

theorem writeBytes_in (m : Mem) (a : Nat) (bs : List UInt8) (k : Nat) (hk : k < bs.length) :
    writeBytes m a bs (a + k) = Cell.byte bs[k] := by
  unfold writeBytes
  have hsome : bs[k]? = some bs[k] := List.getElem?_eq_getElem hk
  simp [hsome]

theorem writePtr_out (psz : Nat) (m : Mem) (a v x : Nat) (h : x < a ∨ a + psz ≤ x) :
    writePtr psz m a v x = m x := by
  unfold writePtr
  have : ¬ (a ≤ x ∧ x < a + psz) := by omega
  simp [this]

theorem writePtr_in (psz : Nat) (m : Mem) (a v k : Nat) (hk : k < psz) :
    writePtr psz m a v (a + k) = Cell.frag v k := by
  unfold writePtr
  have : a ≤ a + k ∧ a + k < a + psz := by omega
  simp [this]

theorem storeBytes_ok (blk : Block) (m : Mem) (a : Nat) (bs : List UInt8)
    (h1 : blk.base ≤ a) (h2 : a + bs.length ≤ blk.base + blk.size) :
    storeBytes blk m a bs = some (writeBytes m a bs) := by
  simp [storeBytes, h1, h2]

theorem storePtr_ok (psz : Nat) (blk : Block) (m : Mem) (a v : Nat)
    (h1 : blk.base ≤ a) (h2 : a + psz ≤ blk.base + blk.size) :
    storePtr psz blk m a v = some (writePtr psz m a v) := by
  simp [storePtr, h1, h2]

/-- A pointer is loaded from cells that hold its bytes in order. -/
theorem loadPtr_of_cells (psz : Nat) (m : Mem) (a v : Nat) (hpsz : 0 < psz)
    (h : ∀ k, k < psz → m (a + k) = Cell.frag v k) : loadPtr psz m a = some v := by
  have h0 : m a = Cell.frag v 0 := by simpa using h 0 hpsz
  unfold loadPtr
  rw [h0]
  have hall : (List.range psz).all (fun k => decide (m (a + k) = Cell.frag v k)) = true := by
    rw [List.all_eq_true]
    intro k hk
    simp only [List.mem_range] at hk
    simp [h k hk]
  simp [hall]

/-- A string is read back from cells that hold its bytes and a terminator. -/
theorem readCStr_of_cells (m : Mem) (s : List UInt8) :
    ∀ (p fuel : Nat), (0 : UInt8) ∉ s → s.length < fuel →
      (∀ k (hk : k < s.length), m (p + k) = Cell.byte s[k]) →
      m (p + s.length) = Cell.byte 0 →
      readCStr m p fuel = some s := by
  induction s with
  | nil =>
    intro p fuel _ hfuel _ hz
    cases fuel with
    | zero => simp at hfuel
    | succ fuel =>
      simp only [List.length_nil, Nat.add_zero] at hz
      simp [readCStr, hz]
  | cons b bs ih =>
    intro p fuel hnul hfuel hcells hz
    cases fuel with
    | zero => simp at hfuel
    | succ fuel =>
      simp only [List.mem_cons, not_or] at hnul
      have hb : b ≠ 0 := fun e => hnul.1 e.symm
      have h0 : m p = Cell.byte b := by simpa using hcells 0 (by simp)
      have hrec := ih (p + 1) fuel hnul.2 (by simp at hfuel; omega)
        (fun k hk => by
          have := hcells (k + 1) (by simp; omega)
          simpa [Nat.add_assoc, Nat.add_comm 1 k] using this)
        (by simpa [Nat.add_assoc, Nat.add_comm 1] using hz)
      simp [readCStr, h0, hb, hrec]

/-- The copying loop over a null-terminated list of strings, started at entry
`i` with the cursor `ptr`, when the pointer slots lie below the cursor and the
strings fit in the block: it ends at the terminator, it changes memory only in
the slots and in the string region, and it leaves in slot `i + j` the address
of a copy of the `j`-th string. -/
theorem copyLoop_list (P : Platform) (blk : Block) (binargv : Nat)
    (argv : Nat → Option (List UInt8)) (rest : List (List UInt8)) :
    ∀ (fuel i ptr : Nat) (m : Mem),
      (∀ j, j ≤ rest.length → argv (i + j) = rest[j]?) →
      (∀ s ∈ rest, (0 : UInt8) ∉ s) →
      rest.length < fuel →
      strBytes rest < P.sizeMod →
      blk.base ≤ binargv + i * P.ptrSize →
      binargv + (i + rest.length) * P.ptrSize ≤ ptr →
      ptr + strBytes rest ≤ blk.base + blk.size →
      ∃ m', copyLoop P blk binargv argv fuel i ptr m
              = .ok (i + rest.length, ptr + strBytes rest, m') ∧
        (∀ x, (x < binargv + i * P.ptrSize ∨ binargv + (i + rest.length) * P.ptrSize ≤ x) →
              (x < ptr ∨ ptr + strBytes rest ≤ x) → m' x = m x) ∧
        (∀ j (hj : j < rest.length),
          (∀ k, k < P.ptrSize →
            m' (binargv + (i + j) * P.ptrSize + k)
              = Cell.frag (ptr + strBytes (rest.take j)) k) ∧
          (∀ k (hk : k < rest[j].length),
            m' (ptr + strBytes (rest.take j) + k) = Cell.byte (rest[j][k])) ∧
          m' (ptr + strBytes (rest.take j) + rest[j].length) = Cell.byte 0) := by
  induction rest with
  | nil =>
    intro fuel i ptr m harg _ hfuel _ _ _ _
    cases fuel with
    | zero => simp at hfuel
    | succ fuel =>
      have h0 : argv i = none := by simpa using harg 0 (by simp)
      refine ⟨m, ?_, ?_, ?_⟩
      · simp [copyLoop, h0, strBytes]
      · intro x _ _; rfl
      · intro j hj; simp at hj
  | cons s rest ih =>
    intro fuel i ptr m harg hnul hfuel hfit hbase hslots hend
    cases fuel with
    | zero => simp at hfuel
    | succ fuel =>
      have h0 : argv i = some s := by simpa using harg 0 (by simp)
      have hs : strlen s = s.length := strlen_eq_length s (hnul s (by simp))
      rw [strBytes_cons] at hfit hend
      simp only [List.length_cons] at hfuel hslots
      have hmul1 : (i + 1) * P.ptrSize = i * P.ptrSize + P.ptrSize := by ring
      have hmul2 : (i + (rest.length + 1)) * P.ptrSize
          = i * P.ptrSize + P.ptrSize + rest.length * P.ptrSize := by ring
      have hmul3 : (i + 1 + rest.length) * P.ptrSize
          = i * P.ptrSize + P.ptrSize + rest.length * P.ptrSize := by ring
      have hmod : (s.length + 1) % P.sizeMod = s.length + 1 := Nat.mod_eq_of_lt (by omega)
      have htake : (s ++ [0]).take (s.length + 1) = s ++ [0] :=
        List.take_of_length_le (by simp)
      have hlen : (s ++ [(0 : UInt8)]).length = s.length + 1 := by simp
      have hsp := storePtr_ok P.ptrSize blk m (binargv + i * P.ptrSize) ptr hbase (by omega)
      have hsb := storeBytes_ok blk (writePtr P.ptrSize m (binargv + i * P.ptrSize) ptr) ptr
        (s ++ [0]) (by omega) (by rw [hlen]; omega)
      obtain ⟨m', hrun, hframe, hcells⟩ := ih fuel (i + 1) (ptr + (s.length + 1))
        (writeBytes (writePtr P.ptrSize m (binargv + i * P.ptrSize) ptr) ptr (s ++ [0]))
        (fun j hj => by
          have := harg (j + 1) (by simp; omega)
          simpa [Nat.add_assoc, Nat.add_comm 1 j] using this)
        (fun t ht => hnul t (by simp [ht]))
        (by omega) (by omega) (by omega) (by omega) (by omega)
      refine ⟨m', ?_, ?_, ?_⟩
      · simp only [copyLoop, h0, hsp, hs, hmod, htake, hsb, hrun, strBytes_cons,
          List.length_cons]
        have e1 : i + 1 + rest.length = i + (rest.length + 1) := by omega
        have e2 : ptr + (s.length + 1) + strBytes rest
            = ptr + (s.length + 1 + strBytes rest) := by omega
        rw [e1, e2]
      · intro x hx1 hx2
        rw [strBytes_cons] at hx2
        simp only [List.length_cons] at hx1
        rw [hframe x (by omega) (by omega),
          writeBytes_out _ _ _ _ (by rw [hlen]; omega), writePtr_out _ _ _ _ _ (by omega)]
      · intro j hj
        cases j with
        | zero =>
          have hz : strBytes (List.take 0 (s :: rest)) = 0 := by simp [strBytes]
          simp only [hz, Nat.add_zero, List.getElem_cons_zero]
          refine ⟨?_, ?_, ?_⟩
          · intro k hk
            rw [hframe _ (by omega) (by omega), writeBytes_out _ _ _ _ (by omega),
              writePtr_in _ _ _ _ _ hk]
          · intro k hk
            rw [hframe _ (by omega) (by omega), writeBytes_in _ _ _ _ (by rw [hlen]; omega)]
            simp [List.getElem_append_left, hk]
          · rw [hframe _ (by omega) (by omega), writeBytes_in _ _ _ _ (by rw [hlen]; omega)]
            simp
        | succ j =>
          simp only [List.length_cons, Nat.add_lt_add_iff_right] at hj
          obtain ⟨hc1, hc2, hc3⟩ := hcells j hj
          have hidx : i + (j + 1) = i + 1 + j := by omega
          have htk : strBytes (List.take (j + 1) (s :: rest))
              = s.length + 1 + strBytes (List.take j rest) := by
            simp [strBytes_cons]
          simp only [hidx, htk, List.getElem_cons_succ, ← Nat.add_assoc]
          exact ⟨hc1, hc2, hc3⟩

/-- The run of `binfmt_copyargv` in the isolated configuration on a
null-terminated list of 1 to 256 strings whose buffer size does not wrap and
is allocated at `b`: the result, the one allocation, the untouched memory and
the content of every pointer slot and of every copied string. -/
theorem binfmt_copyargv_isolated_run (P : Platform) (kmm_malloc : Nat → Nat) (bin : binary_s)
    (mem : Mem) (argv : ArgVec) (args : List (List UInt8)) (b : Nat)
    (haddr : argv.addr ≠ 0)
    (hargs : ∀ i, i ≤ args.length → argv.entry i = args[i]?)
    (hnul : ∀ s ∈ args, (0 : UInt8) ∉ s)
    (hn1 : 1 ≤ args.length) (hn : args.length ≤ MAX_EXEC_ARGS)
    (hfit : (args.length + 1) * P.ptrSize + strBytes args < P.sizeMod)
    (hb : kmm_malloc ((args.length + 1) * P.ptrSize + strBytes args) = b) (hb0 : b ≠ 0) :
    ∃ m', binfmt_copyargv_isolated P kmm_malloc bin mem argv
        = ⟨.ok OK, { bin with argv := b, argbuffer := b }, m',
            [Event.kmm_malloc ((args.length + 1) * P.ptrSize + strBytes args) b]⟩ ∧
      (∀ x, (x < b ∨ b + ((args.length + 1) * P.ptrSize + strBytes args) ≤ x) → m' x = mem x) ∧
      (∀ j (hj : j < args.length),
        (∀ k, k < P.ptrSize →
          m' (b + j * P.ptrSize + k)
            = Cell.frag (b + (args.length + 1) * P.ptrSize + strBytes (args.take j)) k) ∧
        (∀ k (hk : k < args[j].length),
          m' (b + (args.length + 1) * P.ptrSize + strBytes (args.take j) + k)
            = Cell.byte (args[j][k])) ∧
        m' (b + (args.length + 1) * P.ptrSize + strBytes (args.take j) + args[j].length)
          = Cell.byte 0) ∧
      (∀ k, k < P.ptrSize → m' (b + args.length * P.ptrSize + k) = Cell.frag 0 k) := by
  have hS := strBytes_pos args hn1
  have hcount := countLoop_list P argv.entry args (MAX_EXEC_ARGS + 1) 0 0 0
    (fun j hj => by simpa using hargs j hj) hnul (by omega) (by omega) (by omega)
  simp only [Nat.zero_add] at hcount
  have hmul : (args.length + 1) * P.ptrSize = args.length * P.ptrSize + P.ptrSize := by ring
  have hA : ((args.length + 1) * P.ptrSize) % P.sizeMod = (args.length + 1) * P.ptrSize :=
    Nat.mod_eq_of_lt (by omega)
  have hT : ((args.length + 1) * P.ptrSize + strBytes args) % P.sizeMod
      = (args.length + 1) * P.ptrSize + strBytes args := Nat.mod_eq_of_lt hfit
  obtain ⟨m1, hrun, hframe, hcells⟩ := copyLoop_list P
    ⟨b, (args.length + 1) * P.ptrSize + strBytes args⟩ b argv.entry args
    (MAX_EXEC_ARGS + 1) 0 (b + (args.length + 1) * P.ptrSize) mem
    (fun j hj => by simpa using hargs j hj) hnul (by omega) (by omega)
    (by simp) (by simp only [Nat.zero_add]; omega) (by simp only []; omega)
  simp only [Nat.zero_add, Nat.zero_mul, Nat.add_zero] at hrun hframe hcells
  have hlast := storePtr_ok P.ptrSize ⟨b, (args.length + 1) * P.ptrSize + strBytes args⟩ m1
    (b + args.length * P.ptrSize) 0 (by simp) (by simp only []; omega)
  refine ⟨writePtr P.ptrSize m1 (b + args.length * P.ptrSize) 0, ?_, ?_, ?_, ?_⟩
  · unfold binfmt_copyargv_isolated
    simp only [ne_eq, haddr, not_false_eq_true, if_true, hcount, gt_iff_lt, hS, hA, hT, hb,
      hb0, if_false, hrun, hlast]
  · intro x hx
    rw [writePtr_out _ _ _ _ _ (by omega), hframe x (by omega) (by omega)]
  · intro j hj
    obtain ⟨hc1, hc2, hc3⟩ := hcells j hj
    have hjm : (j + 1) * P.ptrSize ≤ args.length * P.ptrSize :=
      Nat.mul_le_mul_right _ (by omega)
    have hjm1 : (j + 1) * P.ptrSize = j * P.ptrSize + P.ptrSize := by ring
    refine ⟨?_, ?_, ?_⟩
    · intro k hk
      rw [writePtr_out _ _ _ _ _ (by omega), hc1 k hk]
    · intro k hk
      rw [writePtr_out _ _ _ _ _ (by omega), hc2 k hk]
    · rw [writePtr_out _ _ _ _ _ (by omega), hc3]
  · intro k hk
    rw [writePtr_in _ _ _ _ _ hk]

/-- The run of `binfmt_copyargv` in the isolated configuration on a
null-terminated list of 1 to 256 strings whose buffer size does not wrap and
whose allocation fails: -ENOMEM, null argument fields, memory untouched. -/
theorem binfmt_copyargv_isolated_nomem (P : Platform) (kmm_malloc : Nat → Nat) (bin : binary_s)
    (mem : Mem) (argv : ArgVec) (args : List (List UInt8))
    (haddr : argv.addr ≠ 0)
    (hargs : ∀ i, i ≤ args.length → argv.entry i = args[i]?)
    (hnul : ∀ s ∈ args, (0 : UInt8) ∉ s)
    (hn1 : 1 ≤ args.length) (hn : args.length ≤ MAX_EXEC_ARGS)
    (hfit : (args.length + 1) * P.ptrSize + strBytes args < P.sizeMod)
    (hb : kmm_malloc ((args.length + 1) * P.ptrSize + strBytes args) = 0) :
    binfmt_copyargv_isolated P kmm_malloc bin mem argv
      = ⟨.ok (-P.ENOMEM), { bin with argv := 0, argbuffer := 0 }, mem,
          [Event.kmm_malloc ((args.length + 1) * P.ptrSize + strBytes args) 0]⟩ := by
  have hS := strBytes_pos args hn1
  have hcount := countLoop_list P argv.entry args (MAX_EXEC_ARGS + 1) 0 0 0
    (fun j hj => by simpa using hargs j hj) hnul (by omega) (by omega) (by omega)
  simp only [Nat.zero_add] at hcount
  have hA : ((args.length + 1) * P.ptrSize) % P.sizeMod = (args.length + 1) * P.ptrSize :=
    Nat.mod_eq_of_lt (by omega)
  have hT : ((args.length + 1) * P.ptrSize + strBytes args) % P.sizeMod
      = (args.length + 1) * P.ptrSize + strBytes args := Nat.mod_eq_of_lt hfit
  unfold binfmt_copyargv_isolated
  simp only [ne_eq, haddr, not_false_eq_true, if_true, hcount, gt_iff_lt, hS, hA, hT, hb]

/-- The run of `binfmt_copyargv` in the isolated configuration on a null argv
and on an argv whose first entry is null: OK, no call, null argument fields,
memory untouched. -/
theorem binfmt_copyargv_isolated_empty (P : Platform) (kmm_malloc : Nat → Nat) (bin : binary_s)
    (mem : Mem) (argv : ArgVec) (h : argv.addr = 0 ∨ argv.entry 0 = none) :
    binfmt_copyargv_isolated P kmm_malloc bin mem argv
      = ⟨.ok OK, { bin with argv := 0, argbuffer := 0 }, mem, []⟩ := by
  unfold binfmt_copyargv_isolated
  by_cases haddr : argv.addr = 0
  · simp [haddr]
  · rcases h with h | h
    · exact absurd h haddr
    · simp [haddr, countLoop, h]

/-- In the isolated configuration `binfmt_copyargv` returns on every
null-terminated list of at most 256 strings whose buffer size does not wrap,
whatever the allocator answers. -/
theorem binfmt_copyargv_isolated_defined (P : Platform) (kmm_malloc : Nat → Nat)
    (bin : binary_s) (mem : Mem) (argv : ArgVec) (args : List (List UInt8))
    (hargs : ∀ i, i ≤ args.length → argv.entry i = args[i]?)
    (hnul : ∀ s ∈ args, (0 : UInt8) ∉ s) (hn : args.length ≤ MAX_EXEC_ARGS)
    (hfit : (args.length + 1) * P.ptrSize + strBytes args < P.sizeMod) :
    ∃ v, (binfmt_copyargv_isolated P kmm_malloc bin mem argv).ret = .ok v := by
  by_cases haddr : argv.addr = 0
  · exact ⟨OK, by rw [binfmt_copyargv_isolated_empty P kmm_malloc bin mem argv (Or.inl haddr)]⟩
  · by_cases hn1 : 1 ≤ args.length
    · by_cases hb : kmm_malloc ((args.length + 1) * P.ptrSize + strBytes args) = 0
      · exact ⟨-P.ENOMEM, by
          rw [binfmt_copyargv_isolated_nomem P kmm_malloc bin mem argv args haddr hargs hnul
            hn1 hn hfit hb]⟩
      · obtain ⟨m', hrun, _⟩ := binfmt_copyargv_isolated_run P kmm_malloc bin mem argv args _
          haddr hargs hnul hn1 hn hfit rfl hb
        exact ⟨OK, by rw [hrun]⟩
    · have h0 : argv.entry 0 = none := by
        have hlen : args.length = 0 := by omega
        have := hargs 0 (by omega)
        rw [this]
        exact List.getElem?_eq_none (by omega)
      exact ⟨OK, by
        rw [binfmt_copyargv_isolated_empty P kmm_malloc bin mem argv (Or.inr h0)]⟩

/-- The counting loop gives up exactly when every entry it can still look at
is non-null. -/
theorem countLoop_tooBig_iff (P : Platform) (argv : Nat → Option (List UInt8)) :
    ∀ (fuel i asz na : Nat), na ≤ MAX_EXEC_ARGS → MAX_EXEC_ARGS - na < fuel →
      (countLoop P argv fuel i asz na = .ok .tooBig
        ↔ ∀ j, j < MAX_EXEC_ARGS + 1 - na → argv (i + j) ≠ none) := by
  intro fuel
  induction fuel with
  | zero => intro i asz na _ h; omega
  | succ fuel ih =>
    intro i asz na hna hfuel
    cases h0 : argv i with
    | none =>
      simp only [countLoop, h0]
      constructor
      · intro h; cases h
      · intro h
        exact absurd h0 (by simpa using h 0 (by omega))
    | some s =>
      by_cases hbig : na + 1 > MAX_EXEC_ARGS
      · simp only [countLoop, h0, hbig, if_true, true_iff]
        intro j hj
        have : j = 0 := by omega
        subst this
        simp [h0]
      · simp only [countLoop, h0, hbig, if_false]
        rw [ih (i + 1) _ (na + 1) (by omega) (by omega)]
        constructor
        · intro h j hj
          cases j with
          | zero => simp [h0]
          | succ j =>
            have := h j (by omega)
            rwa [show i + (j + 1) = i + 1 + j by omega]
        · intro h j hj
          have := h (j + 1) (by omega)
          rwa [show i + (j + 1) = i + 1 + j by omega] at this

/-- The counting loop never runs out of the fuel it is given. -/
theorem countLoop_returns (P : Platform) (argv : Nat → Option (List UInt8)) :
    ∀ (fuel i asz na : Nat), MAX_EXEC_ARGS - na < fuel →
      ∀ e, countLoop P argv fuel i asz na ≠ .error e := by
  intro fuel
  induction fuel with
  | zero => intro i asz na h; omega
  | succ fuel ih =>
    intro i asz na hfuel e
    cases h0 : argv i with
    | none => simp [countLoop, h0]
    | some s =>
      by_cases hbig : na + 1 > MAX_EXEC_ARGS
      · simp [countLoop, h0, hbig]
      · simp only [countLoop, h0, hbig, if_false]
        exact ih _ _ _ (by omega) e

/-- When the counting loop ends with `nargs` arguments, `nargs` is at most
`MAX_EXEC_ARGS` and the entry at which it stopped is null. -/
theorem countLoop_done (P : Platform) (argv : Nat → Option (List UInt8)) :
    ∀ (fuel i asz na a n : Nat), na ≤ MAX_EXEC_ARGS →
      countLoop P argv fuel i asz na = .ok (.done a n) →
      na ≤ n ∧ n ≤ MAX_EXEC_ARGS ∧ argv (i + (n - na)) = none := by
  intro fuel
  induction fuel with
  | zero => intro i asz na a n _ h; simp [countLoop] at h
  | succ fuel ih =>
    intro i asz na a n hna h
    cases h0 : argv i with
    | none =>
      simp only [countLoop, h0, Except.ok.injEq, CountExit.done.injEq] at h
      obtain ⟨_, rfl⟩ := h
      simp [hna, h0]
    | some s =>
      by_cases hbig : na + 1 > MAX_EXEC_ARGS
      · simp [countLoop, h0, hbig] at h
      · simp only [countLoop, h0, hbig, if_false] at h
        obtain ⟨h1, h2, h3⟩ := ih _ _ _ _ _ (by omega) h
        refine ⟨by omega, h2, ?_⟩
        rwa [show i + (n - na) = i + 1 + (n - (na + 1)) by omega]

/-- The copying loop does not run out of fuel when a null entry is within its
reach. -/
theorem copyLoop_returns (P : Platform) (blk : Block) (binargv : Nat)
    (argv : Nat → Option (List UInt8)) :
    ∀ (fuel k i ptr : Nat) (m : Mem), argv (i + k) = none → k < fuel →
      copyLoop P blk binargv argv fuel i ptr m ≠ .error .outOfFuel := by
  intro fuel
  induction fuel with
  | zero => intro k i ptr m _ h; omega
  | succ fuel ih =>
    intro k i ptr m hnone hk
    cases h0 : argv i with
    | none => simp [copyLoop, h0]
    | some s =>
      cases k with
      | zero => simp [h0] at hnone
      | succ k =>
        simp only [copyLoop, h0]
        cases storePtr P.ptrSize blk m (binargv + i * P.ptrSize) ptr with
        | none => simp
        | some m1 =>
          simp only []
          cases storeBytes blk m1 ptr (List.take ((strlen s + 1) % P.sizeMod) (s ++ [0])) with
          | none => simp
          | some m2 =>
            exact ih k (i + 1) _ m2 (by rwa [show i + 1 + k = i + (k + 1) by omega]) (by omega)

/-- The fuel of the two loops of `binfmt_copyargv` is enough: the function
never stops for lack of it. -/
theorem binfmt_copyargv_fuel (P : Platform) (isolated : Bool) (kmm_malloc : Nat → Nat)
    (bin : binary_s) (mem : Mem) (argv : ArgVec) :
    (binfmt_copyargv P isolated kmm_malloc bin mem argv).ret ≠ .error .outOfFuel := by
  cases isolated with
  | false => simp [binfmt_copyargv, binfmt_copyargv_borrow]
  | true =>
    simp only [binfmt_copyargv, if_true]
    unfold binfmt_copyargv_isolated
    by_cases haddr : argv.addr = 0
    · simp [haddr]
    · cases hc : countLoop P argv.entry (MAX_EXEC_ARGS + 1) 0 0 0 with
      | error e =>
        exact absurd hc (countLoop_returns P argv.entry _ 0 0 0 (by omega) e)
      | ok c =>
        cases c with
        | tooBig => simp [haddr]
        | done argsize nargs =>
          obtain ⟨_, hn, hnone⟩ := countLoop_done P argv.entry _ 0 0 0 _ _ (Nat.zero_le _) hc
          simp only [Nat.sub_zero] at hnone
          simp only [ne_eq, haddr, not_false_eq_true, if_true]
          split
          · split
            · simp
            · split
              · rename_i e hcl
                intro h
                simp only [Except.error.injEq] at h
                subst h
                exact copyLoop_returns P _ _ argv.entry _ nargs 0 _ mem hnone (by omega) hcl
              · split <;> simp
          · simp

/-- The ways `binfmt_copyargv` can end in the isolated configuration: what
it returns, the calls it made, and the argument fields of the record, which
are both null unless the allocation succeeded. -/
theorem binfmt_copyargv_isolated_cases (P : Platform) (kmm_malloc : Nat → Nat) (bin : binary_s)
    (mem : Mem) (argv : ArgVec) (r : CopyResult)
    (hr : binfmt_copyargv_isolated P kmm_malloc bin mem argv = r) :
    (r.ret = .ok OK ∧ r.trace = [] ∧ r.bin = { bin with argv := 0, argbuffer := 0 }) ∨
    (r.ret = .ok (-P.E2BIG) ∧ r.trace = [] ∧ r.bin = { bin with argv := 0, argbuffer := 0 }) ∨
    (∃ size, r.ret = .ok (-P.ENOMEM) ∧ r.trace = [Event.kmm_malloc size 0] ∧
      r.bin = { bin with argv := 0, argbuffer := 0 }) ∨
    (∃ size b, b ≠ 0 ∧ (r.ret = .ok OK ∨ ∃ e, r.ret = .error e) ∧
      r.trace = [Event.kmm_malloc size b] ∧ r.bin = { bin with argv := b, argbuffer := b }) := by
  unfold binfmt_copyargv_isolated at hr
  by_cases haddr : argv.addr = 0
  · simp only [haddr, ne_eq, not_true_eq_false, if_false] at hr
    subst hr; simp
  · cases hc : countLoop P argv.entry (MAX_EXEC_ARGS + 1) 0 0 0 with
    | error e => exact absurd hc (countLoop_returns P argv.entry _ 0 0 0 (by omega) e)
    | ok c =>
      cases c with
      | tooBig =>
        simp only [haddr, ne_eq, not_false_eq_true, if_true, hc] at hr
        subst hr; simp
      | done argsize nargs =>
        simp only [haddr, ne_eq, not_false_eq_true, if_true, hc] at hr
        split at hr
        · split at hr
          · rename_i hbuf
            subst hr
            refine Or.inr (Or.inr (Or.inl
              ⟨((nargs + 1) * P.ptrSize % P.sizeMod + argsize) % P.sizeMod, rfl, ?_, ?_⟩))
            · simp only [hbuf]
            · simp only [hbuf]
          · rename_i hbuf
            refine Or.inr (Or.inr (Or.inr
              ⟨((nargs + 1) * P.ptrSize % P.sizeMod + argsize) % P.sizeMod, _, hbuf, ?_⟩))
            split at hr
            · subst hr; exact ⟨Or.inr ⟨_, rfl⟩, rfl, rfl⟩
            · split at hr
              · subst hr; exact ⟨Or.inr ⟨_, rfl⟩, rfl, rfl⟩
              · subst hr; exact ⟨Or.inl rfl, rfl, rfl⟩
        · subst hr; simp

/-- The only calls `binfmt_copyargv` makes are calls of `kmm_malloc`. -/
theorem binfmt_copyargv_trace (P : Platform) (isolated : Bool) (kmm_malloc : Nat → Nat)
    (bin : binary_s) (mem : Mem) (argv : ArgVec) :
    (binfmt_copyargv P isolated kmm_malloc bin mem argv).trace = [] ∨
    ∃ size b, (binfmt_copyargv P isolated kmm_malloc bin mem argv).trace
      = [Event.kmm_malloc size b] := by
  cases isolated with
  | false => simp [binfmt_copyargv, binfmt_copyargv_borrow]
  | true =>
    simp only [binfmt_copyargv, if_true]
    rcases binfmt_copyargv_isolated_cases P kmm_malloc bin mem argv _ rfl with
      h | h | ⟨size, h⟩ | ⟨size, b, _, _, h, _⟩
    · exact Or.inl h.2.1
    · exact Or.inl h.2.1
    · exact Or.inr ⟨size, 0, h.2.1⟩
    · exact Or.inr ⟨size, b, h⟩

/-- The values `binfmt_copyargv` returns: OK, and in the isolated
configuration also -E2BIG and -ENOMEM. -/
theorem binfmt_copyargv_ret (P : Platform) (isolated : Bool) (kmm_malloc : Nat → Nat)
    (bin : binary_s) (mem : Mem) (argv : ArgVec) (v : Int)
    (h : (binfmt_copyargv P isolated kmm_malloc bin mem argv).ret = .ok v) :
    v = OK ∨ (isolated = true ∧ (v = -P.E2BIG ∨ v = -P.ENOMEM)) := by
  cases isolated with
  | false =>
    simp only [binfmt_copyargv, binfmt_copyargv_borrow, Bool.false_eq_true, if_false,
      Except.ok.injEq] at h
    exact Or.inl h.symm
  | true =>
    simp only [binfmt_copyargv, if_true] at h
    rcases binfmt_copyargv_isolated_cases P kmm_malloc bin mem argv _ rfl with
      h1 | h1 | ⟨size, h1⟩ | ⟨size, b, _, h1 | ⟨e, h1⟩, _, _⟩
    · rw [h1.1] at h; exact Or.inl (Except.ok.inj h).symm
    · rw [h1.1] at h; exact Or.inr ⟨rfl, Or.inl (Except.ok.inj h).symm⟩
    · rw [h1.1] at h; exact Or.inr ⟨rfl, Or.inr (Except.ok.inj h).symm⟩
    · rw [h1] at h; exact Or.inl (Except.ok.inj h).symm
    · rw [h1] at h; cases h

/-- Where the size does not wrap: in the isolated configuration, for a
null-terminated list of n strings, 1 ≤ n ≤ 256, whose buffer size is a value
of size_t and whose allocation succeeds, binfmt_copyargv returns OK, entries
0..n-1 of the record's argv array are non-null, entry n is null, and the
null-terminated string read at entry i is the i-th original string. -/
theorem binfmt_copyargv_copies (P : Platform) (kmm_malloc : Nat → Nat) (bin : binary_s)
    (mem : Mem) (argv : ArgVec) (args : List (List UInt8))
    (hpsz : 0 < P.ptrSize) (haddr : argv.addr ≠ 0)
    (hargs : ∀ i, i ≤ args.length → argv.entry i = args[i]?)
    (hnul : ∀ s ∈ args, (0 : UInt8) ∉ s)
    (hn1 : 1 ≤ args.length) (hn : args.length ≤ MAX_EXEC_ARGS)
    (hfit : (args.length + 1) * P.ptrSize + strBytes args < P.sizeMod)
    (halloc : kmm_malloc ((args.length + 1) * P.ptrSize + strBytes args) ≠ 0)
    (r : CopyResult) (hr : r = binfmt_copyargv P true kmm_malloc bin mem argv) :
    r.ret = .ok OK ∧
    (∀ i (hi : i < args.length), ∃ p, p ≠ 0 ∧
      loadPtr P.ptrSize r.mem (r.bin.argv + i * P.ptrSize) = some p ∧
      ∀ fuel, args[i].length < fuel → readCStr r.mem p fuel = some args[i]) ∧
    loadPtr P.ptrSize r.mem (r.bin.argv + args.length * P.ptrSize) = some 0 := by
  obtain ⟨m', hrun, _, hcells, hlast⟩ := binfmt_copyargv_isolated_run P kmm_malloc bin mem argv
    args _ haddr hargs hnul hn1 hn hfit rfl halloc
  have hr' : r = binfmt_copyargv_isolated P kmm_malloc bin mem argv := by
    rw [hr]; simp [binfmt_copyargv]
  rw [hrun] at hr'
  subst hr'
  refine ⟨rfl, ?_, ?_⟩
  · intro i hi
    obtain ⟨hc1, hc2, hc3⟩ := hcells i hi
    refine ⟨_, ?_, loadPtr_of_cells _ _ _ _ hpsz hc1, ?_⟩
    · omega
    · intro fuel hfuel
      exact readCStr_of_cells _ _ _ _ (hnul _ (List.getElem_mem hi)) hfuel hc2 hc3
  · exact loadPtr_of_cells _ _ _ _ hpsz hlast

/-- The copies of the list ["true", "-x"] on a 32-bit target, the allocator
answering 4096. -/
theorem binfmt_copyargv_copies_witness :
    (binfmt_copyargv target32 true (fun _ => 4096) staleBin blankMem
        (ArgVec.ofList 64 trueArgs)).ret = .ok OK ∧
    (∀ i (hi : i < trueArgs.length), ∃ p, p ≠ 0 ∧
      loadPtr target32.ptrSize
        (binfmt_copyargv target32 true (fun _ => 4096) staleBin blankMem
          (ArgVec.ofList 64 trueArgs)).mem
        ((binfmt_copyargv target32 true (fun _ => 4096) staleBin blankMem
          (ArgVec.ofList 64 trueArgs)).bin.argv + i * target32.ptrSize) = some p ∧
      ∀ fuel, trueArgs[i].length < fuel →
        readCStr (binfmt_copyargv target32 true (fun _ => 4096) staleBin blankMem
          (ArgVec.ofList 64 trueArgs)).mem p fuel = some trueArgs[i]) ∧
    loadPtr target32.ptrSize
      (binfmt_copyargv target32 true (fun _ => 4096) staleBin blankMem
        (ArgVec.ofList 64 trueArgs)).mem
      ((binfmt_copyargv target32 true (fun _ => 4096) staleBin blankMem
        (ArgVec.ofList 64 trueArgs)).bin.argv + trueArgs.length * target32.ptrSize) = some 0 :=
  binfmt_copyargv_copies target32 (fun _ => 4096) staleBin blankMem (ArgVec.ofList 64 trueArgs)
    trueArgs (by decide) (by decide) (fun _ _ => rfl) (by decide) (by decide) (by decide)
    (by decide) (by decide) _ rfl

/-- C2: in the isolated configuration binfmt_copyargv returns -E2BIG if and
only if argv is non-null and its first 257 entries are all non-null (so a list
whose entry 256 is null is accepted); when it returns -E2BIG it has called no
allocator, whatever kmm_malloc would answer, and the record's argv and
argbuffer are null. -/
theorem binfmt_copyargv_e2big_iff (P : Platform) (kmm_malloc : Nat → Nat) (bin : binary_s)
    (mem : Mem) (argv : ArgVec) (hP : P.Valid)
    (r : CopyResult) (hr : r = binfmt_copyargv P true kmm_malloc bin mem argv) :
    (r.ret = .ok (-P.E2BIG)
      ↔ argv.addr ≠ 0 ∧ ∀ i, i < MAX_EXEC_ARGS + 1 → argv.entry i ≠ none) ∧
    (argv.entry MAX_EXEC_ARGS = none → r.ret ≠ .ok (-P.E2BIG)) ∧
    (r.ret = .ok (-P.E2BIG) → r.trace = [] ∧ r.bin.argv = 0 ∧ r.bin.argbuffer = 0) := by
  obtain ⟨_, hE, _, hne⟩ := hP
  have hE0 : ¬ (OK = -P.E2BIG) := by unfold OK; omega
  have hEN : ¬ (-P.ENOMEM = -P.E2BIG) := by omega
  have hiff := countLoop_tooBig_iff P argv.entry (MAX_EXEC_ARGS + 1) 0 0 0
    (Nat.zero_le _) (by omega)
  simp only [Nat.zero_add, Nat.sub_zero] at hiff
  have hr' : r = binfmt_copyargv_isolated P kmm_malloc bin mem argv := by
    rw [hr]; simp [binfmt_copyargv]
  have key : (r.ret = .ok (-P.E2BIG)
        ↔ argv.addr ≠ 0 ∧ ∀ i, i < MAX_EXEC_ARGS + 1 → argv.entry i ≠ none) ∧
      (r.ret = .ok (-P.E2BIG) → r.trace = [] ∧ r.bin.argv = 0 ∧ r.bin.argbuffer = 0) := by
    subst hr'
    unfold binfmt_copyargv_isolated
    by_cases haddr : argv.addr = 0
    · simp [haddr, hE0]
    · cases hc : countLoop P argv.entry (MAX_EXEC_ARGS + 1) 0 0 0 with
      | error e =>
        have hno : ¬ ∀ i, i < MAX_EXEC_ARGS + 1 → argv.entry i ≠ none := by
          rw [← hiff, hc]; simp
        simp [haddr, hno]
      | ok c =>
        cases c with
        | tooBig =>
          have hall : ∀ i, i < MAX_EXEC_ARGS + 1 → argv.entry i ≠ none := by
            rw [← hiff, hc]
          simp only [ne_eq, haddr, not_false_eq_true, if_true, true_and, and_self, and_true,
            implies_true]
          exact ⟨fun _ => hall, fun _ => trivial⟩
        | done argsize nargs =>
          have hno : ¬ ∀ i, i < MAX_EXEC_ARGS + 1 → argv.entry i ≠ none := by
            rw [← hiff, hc]; simp
          simp only [ne_eq, haddr, not_false_eq_true, if_true, true_and, hno, iff_false]
          split
          · split
            · simp [hEN]
            · split
              · simp
              · split <;> simp [hE0]
          · simp [hE0]
  refine ⟨key.1, ?_, key.2⟩
  intro hnone hret
  exact (key.1.mp hret).2 MAX_EXEC_ARGS (by omega) hnone

/-- C2 at an argument vector that is never terminated: -E2BIG, no allocation,
null fields. -/
theorem binfmt_copyargv_e2big_iff_witness :
    (binfmt_copyargv target32 true (fun _ => 4096) staleBin blankMem endlessArgv).ret
      = .ok (-target32.E2BIG) ∧
    (binfmt_copyargv target32 true (fun _ => 4096) staleBin blankMem endlessArgv).trace = [] ∧
    (binfmt_copyargv target32 true (fun _ => 4096) staleBin blankMem endlessArgv).bin.argv = 0 ∧
    (binfmt_copyargv target32 true (fun _ => 4096) staleBin blankMem endlessArgv).bin.argbuffer
      = 0 :=
  have h := binfmt_copyargv_e2big_iff target32 (fun _ => 4096) staleBin blankMem endlessArgv
    (by decide) _ rfl
  have hret := h.1.mpr ⟨by decide, fun _ _ hnone => Option.noConfusion hnone⟩
  ⟨hret, h.2.2 hret⟩

/-! ## The paths through exec -/

/-- Exit-hook configuration, record allocation fails. -/
theorem run_alloc_fail (C : Call) (hh : C.hook = true) (hp : C.recordPtr = 0) :
    C.run = ⟨.ok ERROR, [Event.kmm_zalloc C.P.binSize 0, Event.set_errno C.P.ENOMEM], C.mem⟩ := by
  unfold Call.recordPtr at hp
  simp [Call.run, exec, exec_hook, hh, hp, errout]

/-- Exit-hook configuration, the argument transfer does not return. -/
theorem run_copy_stuck (C : Call) (hh : C.hook = true) (hp : C.recordPtr ≠ 0) (e : Stuck)
    (hc : C.copy.ret = .error e) :
    C.run = ⟨.error e, [Event.kmm_zalloc C.P.binSize C.recordPtr] ++ C.copy.trace,
      C.copy.mem⟩ := by
  unfold Call.recordPtr at hp
  unfold Call.copy at hc
  simp [Call.run, exec, exec_hook, hh, hp, hc, Call.recordPtr, Call.copy]

/-- Exit-hook configuration, the argument transfer fails. -/
theorem run_copy_fail (C : Call) (hh : C.hook = true) (hp : C.recordPtr ≠ 0) (v : Int)
    (hc : C.copy.ret = .ok v) (hv : v < 0) :
    C.run = ⟨.ok ERROR, [Event.kmm_zalloc C.P.binSize C.recordPtr] ++ C.copy.trace
      ++ [Event.kmm_free C.recordPtr, Event.set_errno (-v)], C.copy.mem⟩ := by
  unfold Call.recordPtr at hp
  unfold Call.copy at hc
  simp [Call.run, exec, exec_hook, hh, hp, hc, hv, Call.recordPtr, Call.copy, errout,
    errout_with_bin]

/-- Exit-hook configuration, the load fails. -/
theorem run_load_fail (C : Call) (hh : C.hook = true) (hp : C.recordPtr ≠ 0) (v : Int)
    (hc : C.copy.ret = .ok v) (hv : 0 ≤ v) (hl : C.load.ret < 0) :
    C.run = ⟨.ok ERROR, [Event.kmm_zalloc C.P.binSize C.recordPtr] ++ C.copy.trace
      ++ [Event.load_module C.copy.bin C.load.ret C.load.errno,
          Event.binfmt_freeargv C.load.bin, Event.kmm_free C.recordPtr,
          Event.set_errno C.load.errno], C.copy.mem⟩ := by
  unfold Call.recordPtr at hp
  unfold Call.load Call.loadArg at hl
  unfold Call.copy at hc
  rw [hh] at hl
  simp only [if_true] at hl
  unfold Call.copy at hl
  have hv' : ¬ v < 0 := by omega
  simp [Call.run, exec, exec_hook, hh, hp, hc, hv', hl, Call.recordPtr, Call.copy, Call.load,
    Call.loadArg, errout, errout_with_bin, errout_with_argv]

/-- Exit-hook configuration, the start fails. -/
theorem run_start_fail (C : Call) (hh : C.hook = true) (hp : C.recordPtr ≠ 0) (v : Int)
    (hc : C.copy.ret = .ok v) (hv : 0 ≤ v) (hl : 0 ≤ C.load.ret) (hx : C.start.ret < 0) :
    C.run = ⟨.ok ERROR, [Event.kmm_zalloc C.P.binSize C.recordPtr] ++ C.copy.trace
      ++ [Event.load_module C.copy.bin C.load.ret C.load.errno, Event.sched_lock,
          Event.exec_module C.load.bin C.start.ret C.start.errno, Event.sched_unlock,
          Event.unload_module C.start.bin, Event.binfmt_freeargv C.start.bin,
          Event.kmm_free C.recordPtr, Event.set_errno C.start.errno], C.copy.mem⟩ := by
  unfold Call.recordPtr at hp
  unfold Call.start at hx
  unfold Call.load Call.loadArg at hl hx
  unfold Call.copy at hc
  rw [hh] at hl hx
  simp only [if_true] at hl hx
  unfold Call.copy at hl hx
  have hv' : ¬ v < 0 := by omega
  have hl' : ¬ (C.E.load_module (binfmt_copyargv C.P C.isolated C.E.kmm_malloc
      (initBin C.filename C.exports C.nexports) C.mem C.argv).bin).ret < 0 := by omega
  simp [Call.run, exec, exec_hook, hh, hp, hc, hv', hl', hx, Call.recordPtr, Call.copy,
    Call.load, Call.loadArg, Call.start, errout, errout_with_bin, errout_with_argv,
    errout_with_lock]

/-- Exit-hook configuration, the start succeeds. -/
theorem run_started (C : Call) (hh : C.hook = true) (hp : C.recordPtr ≠ 0) (v : Int)
    (hc : C.copy.ret = .ok v) (hv : 0 ≤ v) (hl : 0 ≤ C.load.ret) (hx : 0 ≤ C.start.ret) :
    C.run = ⟨.ok C.start.ret, [Event.kmm_zalloc C.P.binSize C.recordPtr] ++ C.copy.trace
      ++ [Event.load_module C.copy.bin C.load.ret C.load.errno, Event.sched_lock,
          Event.exec_module C.load.bin C.start.ret C.start.errno,
          Event.schedule_unload C.start.ret C.start.bin C.register.ret C.register.errno,
          Event.sched_unlock], C.copy.mem⟩ := by
  unfold Call.recordPtr at hp
  unfold Call.start at hx
  unfold Call.load Call.loadArg at hl hx
  unfold Call.copy at hc
  rw [hh] at hl hx
  simp only [if_true] at hl hx
  unfold Call.copy at hl hx
  have hv' : ¬ v < 0 := by omega
  have hl' : ¬ (C.E.load_module (binfmt_copyargv C.P C.isolated C.E.kmm_malloc
      (initBin C.filename C.exports C.nexports) C.mem C.argv).bin).ret < 0 := by omega
  have hx' : ¬ (C.E.exec_module (C.E.load_module (binfmt_copyargv C.P C.isolated C.E.kmm_malloc
      (initBin C.filename C.exports C.nexports) C.mem C.argv).bin).bin).ret < 0 := by omega
  simp [Call.run, exec, exec_hook, hh, hp, hc, hv', hl', hx', Call.recordPtr, Call.copy,
    Call.load, Call.loadArg, Call.start, Call.register]

/-- Reduced configuration, the load fails. -/
theorem run_reduced_load_fail (C : Call) (hh : C.hook = false) (hl : C.load.ret < 0) :
    C.run = ⟨.ok ERROR, [Event.load_module (initBin C.filename C.exports C.nexports)
      C.load.ret C.load.errno, Event.set_errno C.load.errno], C.mem⟩ := by
  unfold Call.load Call.loadArg at hl
  rw [hh] at hl
  simp only [Bool.false_eq_true, if_false] at hl
  simp [Call.run, exec, exec_reduced, hh, hl, Call.load, Call.loadArg, errout]

/-- Reduced configuration, the start fails. -/
theorem run_reduced_start_fail (C : Call) (hh : C.hook = false) (hl : 0 ≤ C.load.ret)
    (hx : C.start.ret < 0) :
    C.run = ⟨.ok ERROR, [Event.load_module (initBin C.filename C.exports C.nexports)
      C.load.ret C.load.errno, Event.exec_module C.load.bin C.start.ret C.start.errno,
      Event.unload_module C.start.bin, Event.set_errno C.start.errno], C.mem⟩ := by
  unfold Call.start at hx
  unfold Call.load Call.loadArg at hl hx
  rw [hh] at hl hx
  simp only [Bool.false_eq_true, if_false] at hl hx
  have hl' : ¬ (C.E.load_module (initBin C.filename C.exports C.nexports)).ret < 0 := by omega
  simp [Call.run, exec, exec_reduced, hh, hl', hx, Call.load, Call.loadArg, Call.start, errout,
    errout_with_module]

/-- Reduced configuration, the start succeeds. -/
theorem run_reduced_started (C : Call) (hh : C.hook = false) (hl : 0 ≤ C.load.ret)
    (hx : 0 ≤ C.start.ret) :
    C.run = ⟨.ok C.start.ret, [Event.load_module (initBin C.filename C.exports C.nexports)
      C.load.ret C.load.errno, Event.exec_module C.load.bin C.start.ret C.start.errno],
      C.mem⟩ := by
  unfold Call.start at hx
  unfold Call.load Call.loadArg at hl hx
  rw [hh] at hl hx
  simp only [Bool.false_eq_true, if_false] at hl hx
  have hl' : ¬ (C.E.load_module (initBin C.filename C.exports C.nexports)).ret < 0 := by omega
  have hx' : ¬ (C.E.exec_module (C.E.load_module
      (initBin C.filename C.exports C.nexports)).bin).ret < 0 := by omega
  simp [Call.run, exec, exec_reduced, hh, hl', hx', Call.load, Call.loadArg, Call.start]

/-- In the reduced configuration nothing precedes the load. -/
theorem prepared_of_reduced (C : Call) (hh : C.hook = false) : C.Prepared := by
  intro h; rw [hh] at h; cases h

/-- Without the copy of the isolated configuration the argument transfer
always returns. -/
theorem defined_of_borrow (C : Call) (hi : C.isolated = false) : C.Defined := by
  intro _ _
  exact ⟨OK, by simp [Call.copy, binfmt_copyargv, binfmt_copyargv_borrow, hi]⟩

/-- The argument transfer returns on every null-terminated list of at most
256 strings whose buffer size does not wrap. -/
theorem defined_of_fit (C : Call) (args : List (List UInt8))
    (hargs : ∀ i, i ≤ args.length → C.argv.entry i = args[i]?)
    (hnul : ∀ s ∈ args, (0 : UInt8) ∉ s) (hn : args.length ≤ MAX_EXEC_ARGS)
    (hfit : (args.length + 1) * C.P.ptrSize + strBytes args < C.P.sizeMod) : C.Defined := by
  intro _ _
  cases hi : C.isolated with
  | false => exact ⟨OK, by simp [Call.copy, binfmt_copyargv, binfmt_copyargv_borrow, hi]⟩
  | true =>
    obtain ⟨v, hv⟩ := binfmt_copyargv_isolated_defined C.P C.E.kmm_malloc
      (initBin C.filename C.exports C.nexports) C.mem C.argv args hargs hnul hn hfit
    exact ⟨v, by simpa [Call.copy, binfmt_copyargv, hi] using hv⟩

/-- The trace of the argument transfer is empty or one call of `kmm_malloc`. -/
theorem copy_trace_shape (C : Call) :
    C.copy.trace = [] ∨ ∃ size b, C.copy.trace = [Event.kmm_malloc size b] :=
  binfmt_copyargv_trace C.P C.isolated C.E.kmm_malloc
    (initBin C.filename C.exports C.nexports) C.mem C.argv

/-- Every call of exec follows one of ten paths. -/
theorem run_cases (C : Call) :
    (C.hook = true ∧ C.recordPtr = 0 ∧
      C.run = ⟨.ok ERROR, [Event.kmm_zalloc C.P.binSize 0, Event.set_errno C.P.ENOMEM],
        C.mem⟩) ∨
    (C.hook = true ∧ C.recordPtr ≠ 0 ∧ ∃ e, C.copy.ret = .error e ∧
      C.run = ⟨.error e, [Event.kmm_zalloc C.P.binSize C.recordPtr] ++ C.copy.trace,
        C.copy.mem⟩) ∨
    (C.hook = true ∧ C.recordPtr ≠ 0 ∧ ∃ v, C.copy.ret = .ok v ∧ v < 0 ∧
      C.run = ⟨.ok ERROR, [Event.kmm_zalloc C.P.binSize C.recordPtr] ++ C.copy.trace
        ++ [Event.kmm_free C.recordPtr, Event.set_errno (-v)], C.copy.mem⟩) ∨
    (C.hook = true ∧ C.Prepared ∧ C.load.ret < 0 ∧
      C.run = ⟨.ok ERROR, [Event.kmm_zalloc C.P.binSize C.recordPtr] ++ C.copy.trace
        ++ [Event.load_module C.copy.bin C.load.ret C.load.errno,
            Event.binfmt_freeargv C.load.bin, Event.kmm_free C.recordPtr,
            Event.set_errno C.load.errno], C.copy.mem⟩) ∨
    (C.hook = true ∧ C.Prepared ∧ 0 ≤ C.load.ret ∧ C.start.ret < 0 ∧
      C.run = ⟨.ok ERROR, [Event.kmm_zalloc C.P.binSize C.recordPtr] ++ C.copy.trace
        ++ [Event.load_module C.copy.bin C.load.ret C.load.errno, Event.sched_lock,
            Event.exec_module C.load.bin C.start.ret C.start.errno, Event.sched_unlock,
            Event.unload_module C.start.bin, Event.binfmt_freeargv C.start.bin,
            Event.kmm_free C.recordPtr, Event.set_errno C.start.errno], C.copy.mem⟩) ∨
    (C.hook = true ∧ C.Prepared ∧ 0 ≤ C.load.ret ∧ 0 ≤ C.start.ret ∧
      C.run = ⟨.ok C.start.ret, [Event.kmm_zalloc C.P.binSize C.recordPtr] ++ C.copy.trace
        ++ [Event.load_module C.copy.bin C.load.ret C.load.errno, Event.sched_lock,
            Event.exec_module C.load.bin C.start.ret C.start.errno,
            Event.schedule_unload C.start.ret C.start.bin C.register.ret C.register.errno,
            Event.sched_unlock], C.copy.mem⟩) ∨
    (C.hook = false ∧ C.load.ret < 0 ∧
      C.run = ⟨.ok ERROR, [Event.load_module (initBin C.filename C.exports C.nexports)
        C.load.ret C.load.errno, Event.set_errno C.load.errno], C.mem⟩) ∨
    (C.hook = false ∧ 0 ≤ C.load.ret ∧ C.start.ret < 0 ∧
      C.run = ⟨.ok ERROR, [Event.load_module (initBin C.filename C.exports C.nexports)
        C.load.ret C.load.errno, Event.exec_module C.load.bin C.start.ret C.start.errno,
        Event.unload_module C.start.bin, Event.set_errno C.start.errno], C.mem⟩) ∨
    (C.hook = false ∧ 0 ≤ C.load.ret ∧ 0 ≤ C.start.ret ∧
      C.run = ⟨.ok C.start.ret, [Event.load_module (initBin C.filename C.exports C.nexports)
        C.load.ret C.load.errno, Event.exec_module C.load.bin C.start.ret C.start.errno],
        C.mem⟩) := by
  cases hh : C.hook with
  | false =>
    by_cases hl : C.load.ret < 0
    · exact Or.inr (Or.inr (Or.inr (Or.inr (Or.inr (Or.inr (Or.inl
        ⟨rfl, hl, run_reduced_load_fail C hh hl⟩))))))
    · by_cases hx : C.start.ret < 0
      · exact Or.inr (Or.inr (Or.inr (Or.inr (Or.inr (Or.inr (Or.inr (Or.inl
          ⟨rfl, by omega, hx, run_reduced_start_fail C hh (by omega) hx⟩)))))))
      · exact Or.inr (Or.inr (Or.inr (Or.inr (Or.inr (Or.inr (Or.inr (Or.inr
          ⟨rfl, by omega, by omega, run_reduced_started C hh (by omega) (by omega)⟩)))))))
  | true =>
    by_cases hp : C.recordPtr = 0
    · exact Or.inl ⟨rfl, hp, run_alloc_fail C hh hp⟩
    · cases hc : C.copy.ret with
      | error e => exact Or.inr (Or.inl ⟨rfl, hp, e, rfl, run_copy_stuck C hh hp e hc⟩)
      | ok v =>
        by_cases hv : v < 0
        · exact Or.inr (Or.inr (Or.inl ⟨rfl, hp, v, rfl, hv, run_copy_fail C hh hp v hc hv⟩))
        · have hprep : C.Prepared := fun _ => ⟨hp, v, hc, by omega⟩
          by_cases hl : C.load.ret < 0
          · exact Or.inr (Or.inr (Or.inr (Or.inl
              ⟨rfl, hprep, hl, run_load_fail C hh hp v hc (by omega) hl⟩)))
          · by_cases hx : C.start.ret < 0
            · exact Or.inr (Or.inr (Or.inr (Or.inr (Or.inl
                ⟨rfl, hprep, by omega, hx,
                  run_start_fail C hh hp v hc (by omega) (by omega) hx⟩))))
            · exact Or.inr (Or.inr (Or.inr (Or.inr (Or.inr (Or.inl
                ⟨rfl, hprep, by omega, by omega,
                  run_started C hh hp v hc (by omega) (by omega) (by omega)⟩)))))

/-- When every stage succeeds exec returns what `exec_module` returned. -/
theorem run_ret_of_success (C : Call) (h : C.AllStagesSucceed) :
    C.run.ret = .ok C.start.ret := by
  obtain ⟨hprep, hl, hx⟩ := h
  cases hh : C.hook with
  | false => rw [run_reduced_started C hh hl hx]
  | true =>
    obtain ⟨hp, v, hc, hv⟩ := hprep hh
    rw [run_started C hh hp v hc hv hl hx]

/-- When exec returns ERROR, no call of `exec_module` in its trace returned a
task identifier. -/
theorem run_error_no_task (C : Call) (h : C.run.ret = .ok ERROR) :
    ∀ b pid e, Event.exec_module b pid e ∈ C.run.trace → pid < 0 := by
  intro b pid e hmem
  have hne : ∀ x : Int, 0 ≤ x → (Except.ok x : Except Stuck Int) = .ok ERROR → False := by
    intro x hx hx'
    have := Except.ok.inj hx'
    unfold ERROR at this
    omega
  rcases run_cases C with ⟨_, _, hrun⟩ | ⟨_, _, _, _, hrun⟩ | ⟨_, _, _, _, _, hrun⟩ |
    ⟨_, _, _, hrun⟩ | ⟨_, _, _, hx, hrun⟩ | ⟨_, _, _, hx, hrun⟩ | ⟨_, _, hrun⟩ |
    ⟨_, _, hx, hrun⟩ | ⟨_, _, hx, hrun⟩ <;>
  rw [hrun] at h hmem <;>
  rcases copy_trace_shape C with h0 | ⟨size, b', h0⟩ <;>
  first
    | exact absurd h (fun h' => hne _ hx h')
    | (simp [h0] at hmem; omega)
    | (simp [h0] at hmem)

/-- Where the argument transfer returns: for a call whose argument transfer,
when reached, returns, exec returns a non-negative value exactly when every
stage up to and including the start succeeds, that value is the one
exec_module returned, in every other case exec returns ERROR, and when exec
returns ERROR no call of exec_module in the trace returned a task
identifier. -/
theorem exec_returns_pid_iff (C : Call) (hdef : C.Defined) :
    (C.AllStagesSucceed ↔ ∃ pid, C.run.ret = .ok pid ∧ 0 ≤ pid) ∧
    (C.AllStagesSucceed → C.run.ret = .ok C.start.ret) ∧
    (¬ C.AllStagesSucceed → C.run.ret = .ok ERROR) ∧
    (C.run.ret = .ok ERROR →
      ∀ b pid e, Event.exec_module b pid e ∈ C.run.trace → pid < 0) := by
  have hfail : ¬ C.AllStagesSucceed → C.run.ret = .ok ERROR := by
    intro hnot
    rcases run_cases C with ⟨_, _, hrun⟩ | ⟨hh, hp, e, he, _⟩ | ⟨_, _, _, _, _, hrun⟩ |
      ⟨_, _, _, hrun⟩ | ⟨_, _, _, _, hrun⟩ | ⟨_, hprep, hl, hx, _⟩ | ⟨_, _, hrun⟩ |
      ⟨_, _, _, hrun⟩ | ⟨hh, hl, hx, _⟩
    · rw [hrun]
    · obtain ⟨v, hv⟩ := hdef hh hp
      rw [he] at hv; cases hv
    · rw [hrun]
    · rw [hrun]
    · rw [hrun]
    · exact absurd ⟨hprep, hl, hx⟩ hnot
    · rw [hrun]
    · rw [hrun]
    · exact absurd ⟨prepared_of_reduced C hh, hl, hx⟩ hnot
  refine ⟨⟨fun h => ⟨C.start.ret, run_ret_of_success C h, h.2.2⟩, ?_⟩,
    run_ret_of_success C, hfail, run_error_no_task C⟩
  rintro ⟨pid, hret, hpid⟩
  by_contra hnot
  rw [hfail hnot] at hret
  have := Except.ok.inj hret
  unfold ERROR at this
  omega

/-- The sample launch in the isolated exit-hook configuration: with every
stage succeeding exec returns the task identifier 7 of exec_module; with a
failing load it returns ERROR. -/
theorem exec_returns_pid_iff_witness :
    (sampleCall true true (sampleCollab 0 7 0)).run.ret = .ok 7 ∧
    (sampleCall true true (sampleCollab (-1) 7 0)).run.ret = .ok ERROR :=
  ⟨(exec_returns_pid_iff (sampleCall true true (sampleCollab 0 7 0))
      (fun _ _ => ⟨0, by decide⟩)).2.1
      ⟨fun _ => ⟨by decide, 0, by decide, by decide⟩, by decide, by decide⟩,
   (exec_returns_pid_iff (sampleCall true true (sampleCollab (-1) 7 0))
      (fun _ _ => ⟨0, by decide⟩)).2.2.1
      (fun h => absurd h.2.1 (by decide))⟩

/-- A value that is not negative is not ERROR. -/
theorem ok_ne_error (x : Int) (hx : 0 ≤ x) :
    (Except.ok x : Except Stuck Int) ≠ .ok ERROR := by
  intro h
  have := Except.ok.inj h
  unfold ERROR at this
  omega

/-- C4: whenever exec returns ERROR, its trace ends with a call of set_errno,
that is its only call of set_errno, and the value passed is the error of the
first failing stage: ENOMEM for the record allocation, the negated return
value of binfmt_copyargv (E2BIG or ENOMEM) for the argument transfer, the
errno left by load_module for the load, the errno left by exec_module for the
start. -/
theorem exec_error_sets_errno (C : Call) (h : C.run.ret = .ok ERROR) :
    ∃ pre err, C.run.trace = pre ++ [Event.set_errno err] ∧
      errnoWritten C.run.trace = [err] ∧
      (C.hook = true → C.recordPtr = 0 → err = C.P.ENOMEM) ∧
      (C.hook = true → C.recordPtr ≠ 0 → ∀ v, C.copy.ret = .ok v → v < 0 →
        err = -v ∧ (err = C.P.E2BIG ∨ err = C.P.ENOMEM)) ∧
      (C.Prepared → C.load.ret < 0 → err = C.load.errno) ∧
      (C.Prepared → 0 ≤ C.load.ret → C.start.ret < 0 → err = C.start.errno) := by
  have hshape := copy_trace_shape C
  rcases run_cases C with ⟨hh, hp, hrun⟩ | ⟨hh, hp, e, he, hrun⟩ | ⟨hh, hp, v, hc, hv, hrun⟩ |
    ⟨hh, hprep, hl, hrun⟩ | ⟨hh, hprep, hl, hx, hrun⟩ | ⟨hh, hprep, hl, hx, hrun⟩ |
    ⟨hh, hl, hrun⟩ | ⟨hh, hl, hx, hrun⟩ | ⟨hh, hl, hx, hrun⟩
  · refine ⟨[Event.kmm_zalloc C.P.binSize 0], C.P.ENOMEM, by rw [hrun]; rfl,
      by rw [hrun]; rfl, fun _ _ => rfl, fun _ hp' => absurd hp hp',
      fun hprep _ => absurd hp (hprep hh).1, fun hprep _ _ => absurd hp (hprep hh).1⟩
  · rw [hrun] at h; cases h
  · have hnp : ¬ C.Prepared := fun hprep => by
      obtain ⟨_, w, hw, hw0⟩ := hprep hh
      rw [hc] at hw; cases hw; omega
    refine ⟨[Event.kmm_zalloc C.P.binSize C.recordPtr] ++ C.copy.trace
      ++ [Event.kmm_free C.recordPtr], -v, by rw [hrun]; simp, ?_,
      fun _ hp' => absurd hp' hp, ?_, fun hprep => absurd hprep hnp,
      fun hprep => absurd hprep hnp⟩
    · rw [hrun]
      rcases hshape with h0 | ⟨size, b, h0⟩ <;> simp [errnoWritten, h0]
    · intro _ _ w hw hw0
      rw [hc] at hw; cases hw
      refine ⟨rfl, ?_⟩
      rcases binfmt_copyargv_ret C.P C.isolated C.E.kmm_malloc
        (initBin C.filename C.exports C.nexports) C.mem C.argv v hc with h1 | ⟨_, h1 | h1⟩
      · unfold OK at h1; omega
      · exact Or.inl (by omega)
      · exact Or.inr (by omega)
  · refine ⟨[Event.kmm_zalloc C.P.binSize C.recordPtr] ++ C.copy.trace
      ++ [Event.load_module C.copy.bin C.load.ret C.load.errno,
          Event.binfmt_freeargv C.load.bin, Event.kmm_free C.recordPtr], C.load.errno,
      by rw [hrun]; simp, ?_, fun _ hp' => absurd hp' (hprep hh).1, ?_, fun _ _ => rfl,
      fun _ hl' => by omega⟩
    · rw [hrun]
      rcases hshape with h0 | ⟨size, b, h0⟩ <;> simp [errnoWritten, h0]
    · intro _ _ w hw hw0
      obtain ⟨_, w', hw', hw0'⟩ := hprep hh
      rw [hw] at hw'; cases hw'; omega
  · refine ⟨[Event.kmm_zalloc C.P.binSize C.recordPtr] ++ C.copy.trace
      ++ [Event.load_module C.copy.bin C.load.ret C.load.errno, Event.sched_lock,
          Event.exec_module C.load.bin C.start.ret C.start.errno, Event.sched_unlock,
          Event.unload_module C.start.bin, Event.binfmt_freeargv C.start.bin,
          Event.kmm_free C.recordPtr], C.start.errno,
      by rw [hrun]; simp, ?_, fun _ hp' => absurd hp' (hprep hh).1, ?_,
      fun _ hl' => by omega, fun _ _ _ => rfl⟩
    · rw [hrun]
      rcases hshape with h0 | ⟨size, b, h0⟩ <;> simp [errnoWritten, h0]
    · intro _ _ w hw hw0
      obtain ⟨_, w', hw', hw0'⟩ := hprep hh
      rw [hw] at hw'; cases hw'; omega
  · rw [hrun] at h; exact absurd h (ok_ne_error _ hx)
  · have hnh : ¬ C.hook = true := by rw [hh]; decide
    refine ⟨[Event.load_module (initBin C.filename C.exports C.nexports)
      C.load.ret C.load.errno], C.load.errno, by rw [hrun]; rfl, by rw [hrun]; rfl,
      fun hh' => absurd hh' hnh, fun hh' => absurd hh' hnh,
      fun _ _ => rfl, fun _ hl' => by omega⟩
  · have hnh : ¬ C.hook = true := by rw [hh]; decide
    refine ⟨[Event.load_module (initBin C.filename C.exports C.nexports)
      C.load.ret C.load.errno, Event.exec_module C.load.bin C.start.ret C.start.errno,
      Event.unload_module C.start.bin], C.start.errno, by rw [hrun]; rfl, by rw [hrun]; rfl,
      fun hh' => absurd hh' hnh, fun hh' => absurd hh' hnh,
      fun _ hl' => by omega, fun _ _ _ => rfl⟩
  · rw [hrun] at h; exact absurd h (ok_ne_error _ hx)

/-- C4 at the sample launch whose load fails with errno 2: exec returns ERROR
and its only call of set_errno, the last event, passes 2. -/
theorem exec_error_sets_errno_witness :
    ∃ pre err, (sampleCall true true (sampleCollab (-1) 7 0)).run.trace
        = pre ++ [Event.set_errno err] ∧
      errnoWritten (sampleCall true true (sampleCollab (-1) 7 0)).run.trace = [err] ∧
      err = 2 :=
  let ⟨pre, err, h1, h2, _, _, h5, _⟩ :=
    exec_error_sets_errno (sampleCall true true (sampleCollab (-1) 7 0)) (by decide)
  ⟨pre, err, h1, h2, h5 (fun _ => ⟨by decide, 0, by decide, by decide⟩) (by decide)⟩

/-- The buffer that the argument transfer allocates is the one it leaves in
the record. -/
theorem copy_malloc_in_record (C : Call) (size b : Nat)
    (h : Event.kmm_malloc size b ∈ C.copy.trace) : C.copy.bin.argbuffer = b := by
  unfold Call.copy at h ⊢
  cases hi : C.isolated with
  | false => rw [hi] at h; simp [binfmt_copyargv, binfmt_copyargv_borrow] at h
  | true =>
    rw [hi] at h
    simp only [binfmt_copyargv, if_true] at h ⊢
    rcases binfmt_copyargv_isolated_cases C.P C.E.kmm_malloc
      (initBin C.filename C.exports C.nexports) C.mem C.argv _ rfl with
      h1 | h1 | ⟨sz, h1⟩ | ⟨sz, b', _, _, h1, h2⟩
    · rw [h1.2.1] at h; cases h
    · rw [h1.2.1] at h; cases h
    · rw [h1.2.1] at h
      simp only [List.mem_singleton, Event.kmm_malloc.injEq] at h
      rw [h1.2.2, ← h.2]
    · rw [h1] at h
      simp only [List.mem_singleton, Event.kmm_malloc.injEq] at h
      rw [h2, ← h.2]

/-- C5: when the stages before it succeed, load_module succeeds and
exec_module fails, exec returns ERROR, calls unload_module exactly once and
schedule_unload never; in the exit-hook configuration the events from the
failed start on are exactly exec_module, sched_unlock, unload_module,
binfmt_freeargv, kmm_free of the record, set_errno of the starter's errno; in
the reduced configuration they are exec_module, unload_module, set_errno of
the starter's errno. -/
theorem exec_start_failure_unwinds (C : Call) (hprep : C.Prepared) (hl : 0 ≤ C.load.ret)
    (hx : C.start.ret < 0) :
    C.run.ret = .ok ERROR ∧
    C.run.trace.countP Event.isUnload = 1 ∧
    C.run.trace.countP Event.isScheduleUnload = 0 ∧
    (C.hook = true → ∃ pre, (∀ ev ∈ pre, ev.isStart = false) ∧
      C.run.trace = pre ++ [Event.exec_module C.load.bin C.start.ret C.start.errno,
        Event.sched_unlock, Event.unload_module C.start.bin,
        Event.binfmt_freeargv C.start.bin, Event.kmm_free C.recordPtr,
        Event.set_errno C.start.errno]) ∧
    (C.hook = false → ∃ pre, (∀ ev ∈ pre, ev.isStart = false) ∧
      C.run.trace = pre ++ [Event.exec_module C.load.bin C.start.ret C.start.errno,
        Event.unload_module C.start.bin, Event.set_errno C.start.errno]) := by
  cases hh : C.hook with
  | false =>
    rw [run_reduced_start_fail C hh hl hx]
    refine ⟨rfl, by simp [Event.isUnload], by simp [Event.isScheduleUnload],
      (fun h => by cases h), fun _ => ⟨[Event.load_module (initBin C.filename C.exports
        C.nexports) C.load.ret C.load.errno], by simp [Event.isStart], rfl⟩⟩
  | true =>
    obtain ⟨hp, v, hc, hv⟩ := hprep hh
    rw [run_start_fail C hh hp v hc hv hl hx]
    refine ⟨rfl, ?_, ?_, fun _ => ⟨[Event.kmm_zalloc C.P.binSize C.recordPtr] ++ C.copy.trace
      ++ [Event.load_module C.copy.bin C.load.ret C.load.errno, Event.sched_lock], ?_, by simp⟩,
      (fun h => by cases h)⟩
    · rcases copy_trace_shape C with h0 | ⟨size, b, h0⟩ <;> simp [h0, Event.isUnload]
    · rcases copy_trace_shape C with h0 | ⟨size, b, h0⟩ <;> simp [h0, Event.isScheduleUnload]
    · rcases copy_trace_shape C with h0 | ⟨size, b, h0⟩ <;> simp [h0, Event.isStart]

/-- C5 at the sample launch whose start fails, in the exit-hook configuration. -/
theorem exec_start_failure_unwinds_witness :
    (sampleCall true true (sampleCollab 0 (-1) 0)).run.ret = .ok ERROR ∧
    (sampleCall true true (sampleCollab 0 (-1) 0)).run.trace.countP Event.isUnload = 1 ∧
    (sampleCall true true (sampleCollab 0 (-1) 0)).run.trace.countP Event.isScheduleUnload
      = 0 :=
  have h := exec_start_failure_unwinds (sampleCall true true (sampleCollab 0 (-1) 0))
    (fun _ => ⟨by decide, 0, by decide, by decide⟩) (by decide) (by decide)
  ⟨h.1, h.2.1, h.2.2.1⟩

/-- C6: in the exit-hook configuration, when record allocation and argument
transfer succeed and load_module fails, exec returns ERROR and passes the
loader's errno to set_errno; it calls neither sched_lock, exec_module,
schedule_unload nor unload_module; it calls binfmt_freeargv and then kmm_free
on the record it allocated, each exactly once, as its last events before
set_errno; and the buffer of every kmm_malloc it made is the one the
transfer left in the record. -/
theorem exec_load_failure_releases (C : Call) (hh : C.hook = true) (hprep : C.Prepared)
    (hl : C.load.ret < 0) :
    C.run.ret = .ok ERROR ∧
    errnoWritten C.run.trace = [C.load.errno] ∧
    (∀ ev ∈ C.run.trace, ev ≠ Event.sched_lock ∧ ev.isStart = false ∧
      ev.isScheduleUnload = false ∧ ev.isUnload = false) ∧
    C.run.trace.countP Event.isFreeArgv = 1 ∧
    C.run.trace.countP Event.isRecordFree = 1 ∧
    (∃ pre, (∀ ev ∈ pre, ev.isTeardown = false) ∧
      Event.kmm_zalloc C.P.binSize C.recordPtr ∈ pre ∧
      C.run.trace = pre ++ [Event.binfmt_freeargv C.load.bin, Event.kmm_free C.recordPtr,
        Event.set_errno C.load.errno]) ∧
    (∀ size b, Event.kmm_malloc size b ∈ C.run.trace → C.copy.bin.argbuffer = b) := by
  obtain ⟨hp, v, hc, hv⟩ := hprep hh
  have hmal := copy_malloc_in_record C
  rw [run_load_fail C hh hp v hc hv hl]
  refine ⟨rfl, ?_, ?_, ?_, ?_, ⟨[Event.kmm_zalloc C.P.binSize C.recordPtr] ++ C.copy.trace
      ++ [Event.load_module C.copy.bin C.load.ret C.load.errno], ?_, by simp, by simp⟩, ?_⟩
  · rcases copy_trace_shape C with h0 | ⟨size, b, h0⟩ <;> simp [h0, errnoWritten]
  · rcases copy_trace_shape C with h0 | ⟨size, b, h0⟩ <;>
      simp [h0, Event.isStart, Event.isScheduleUnload, Event.isUnload]
  · rcases copy_trace_shape C with h0 | ⟨size, b, h0⟩ <;> simp [h0, Event.isFreeArgv]
  · rcases copy_trace_shape C with h0 | ⟨size, b, h0⟩ <;> simp [h0, Event.isRecordFree]
  · rcases copy_trace_shape C with h0 | ⟨size, b, h0⟩ <;> simp [h0, Event.isTeardown]
  · intro size b hmem
    simp only [List.mem_append, List.mem_cons, List.mem_singleton, List.not_mem_nil,
      or_false, reduceCtorEq, false_or] at hmem
    exact hmal size b hmem

/-- C6 at the sample launch whose load fails. -/
theorem exec_load_failure_releases_witness :
    (sampleCall true true (sampleCollab (-1) 7 0)).run.ret = .ok ERROR ∧
    errnoWritten (sampleCall true true (sampleCollab (-1) 7 0)).run.trace = [2] ∧
    (sampleCall true true (sampleCollab (-1) 7 0)).run.trace.countP Event.isFreeArgv = 1 ∧
    (sampleCall true true (sampleCollab (-1) 7 0)).run.trace.countP Event.isRecordFree = 1 :=
  have h := exec_load_failure_releases (sampleCall true true (sampleCollab (-1) 7 0)) rfl
    (fun _ => ⟨by decide, 0, by decide, by decide⟩) (by decide)
  ⟨h.1, h.2.1, h.2.2.2.1, h.2.2.2.2.1⟩

/-- C7: in the exit-hook configuration, when exec_module succeeds with task
identifier pid and schedule_unload fails, exec returns pid, calls sched_unlock
exactly once, after schedule_unload(pid, record), and makes no call of
unload_module, binfmt_freeargv or kmm_free. -/
theorem exec_hook_failure_keeps_task (C : Call) (hh : C.hook = true) (hprep : C.Prepared)
    (hl : 0 ≤ C.load.ret) (hx : 0 ≤ C.start.ret) (hs : C.register.ret < 0) :
    C.run.ret = .ok C.start.ret ∧
    C.run.trace.count Event.sched_unlock = 1 ∧
    (∀ ev ∈ C.run.trace, ev.isTeardown = false) ∧
    (∃ pre, C.run.trace = pre ++ [Event.schedule_unload C.start.ret C.start.bin
        C.register.ret C.register.errno, Event.sched_unlock]) := by
  obtain ⟨hp, v, hc, hv⟩ := hprep hh
  rw [run_started C hh hp v hc hv hl hx]
  refine ⟨rfl, ?_, ?_, ⟨[Event.kmm_zalloc C.P.binSize C.recordPtr] ++ C.copy.trace
      ++ [Event.load_module C.copy.bin C.load.ret C.load.errno, Event.sched_lock,
        Event.exec_module C.load.bin C.start.ret C.start.errno], by simp⟩⟩
  · rcases copy_trace_shape C with h0 | ⟨size, b, h0⟩ <;> simp [h0]
  · rcases copy_trace_shape C with h0 | ⟨size, b, h0⟩ <;> simp [h0, Event.isTeardown]

/-- C7 at the sample launch whose hook registration fails. -/
theorem exec_hook_failure_keeps_task_witness :
    (sampleCall true true (sampleCollab 0 7 (-1))).run.ret = .ok 7 ∧
    (sampleCall true true (sampleCollab 0 7 (-1))).run.trace.count Event.sched_unlock = 1 ∧
    (∀ ev ∈ (sampleCall true true (sampleCollab 0 7 (-1))).run.trace,
      ev.isTeardown = false) :=
  have h := exec_hook_failure_keeps_task (sampleCall true true (sampleCollab 0 7 (-1))) rfl
    (fun _ => ⟨by decide, 0, by decide, by decide⟩) (by decide) (by decide) (by decide)
  ⟨h.1, h.2.1, h.2.2.1⟩

/-- C8, as stated, fails: two launches that differ only in the answer of
schedule_unload, which fails in the first and succeeds in the second, leave
the same return value and the same writes to errno. -/
theorem exec_hook_failure_reported_counterexample :
    0 ≤ (sampleCall true true (sampleCollab 0 7 (-1))).start.ret ∧
    (sampleCall true true (sampleCollab 0 7 (-1))).register.ret < 0 ∧
    0 ≤ (sampleCall true true (sampleCollab 0 7 0)).register.ret ∧
    (sampleCall true true (sampleCollab 0 7 (-1))).run.ret
      = (sampleCall true true (sampleCollab 0 7 0)).run.ret ∧
    errnoWritten (sampleCall true true (sampleCollab 0 7 (-1))).run.trace
      = errnoWritten (sampleCall true true (sampleCollab 0 7 0)).run.trace := by
  decide

/-- C8, amended: when the start succeeds in the exit-hook configuration, exec
returns the task identifier and never calls set_errno, and neither its return
value nor its writes to errno depend on what schedule_unload answers. -/
theorem exec_hook_failure_not_reported (C : Call) (f : Int → binary_s → Answer)
    (hh : C.hook = true) (hprep : C.Prepared) (hl : 0 ≤ C.load.ret)
    (hx : 0 ≤ C.start.ret) :
    C.run.ret = .ok C.start.ret ∧
    errnoWritten C.run.trace = [] ∧
    (C.withRegister f).run.ret = C.run.ret ∧
    errnoWritten (C.withRegister f).run.trace = errnoWritten C.run.trace := by
  obtain ⟨hp, v, hc, hv⟩ := hprep hh
  have h1 := run_started C hh hp v hc hv hl hx
  have h2 := run_started (C.withRegister f) hh hp v hc hv hl hx
  have hw : ∀ D : Call, errnoWritten ([Event.kmm_zalloc D.P.binSize D.recordPtr] ++ D.copy.trace
      ++ [Event.load_module D.copy.bin D.load.ret D.load.errno, Event.sched_lock,
          Event.exec_module D.load.bin D.start.ret D.start.errno,
          Event.schedule_unload D.start.ret D.start.bin D.register.ret D.register.errno,
          Event.sched_unlock]) = [] := by
    intro D
    rcases copy_trace_shape D with h0 | ⟨size, b, h0⟩ <;> simp [h0, errnoWritten]
  rw [h1, h2]
  exact ⟨rfl, hw C, rfl, by rw [hw, hw]⟩

/-- C8, amended, at the sample launch with a failing registration. -/
theorem exec_hook_failure_not_reported_witness :
    (sampleCall true true (sampleCollab 0 7 0)).run.ret = .ok 7 ∧
    errnoWritten (sampleCall true true (sampleCollab 0 7 0)).run.trace = [] ∧
    ((sampleCall true true (sampleCollab 0 7 0)).withRegister
        (fun _ b => ⟨-1, 12, b⟩)).run.ret
      = (sampleCall true true (sampleCollab 0 7 0)).run.ret ∧
    errnoWritten ((sampleCall true true (sampleCollab 0 7 0)).withRegister
        (fun _ b => ⟨-1, 12, b⟩)).run.trace
      = errnoWritten (sampleCall true true (sampleCollab 0 7 0)).run.trace :=
  exec_hook_failure_not_reported (sampleCall true true (sampleCollab 0 7 0))
    (fun _ b => ⟨-1, 12, b⟩) rfl (fun _ => ⟨by decide, 0, by decide, by decide⟩)
    (by decide) (by decide)

/-- An element that occurs once in a list splits it in one way only. -/
theorem split_unique {α : Type} (x : α) :
    ∀ (pre0 post0 pre post : List α), x ∉ pre0 → x ∉ post0 →
      pre0 ++ x :: post0 = pre ++ x :: post → pre = pre0 ∧ post = post0 := by
  intro pre0
  induction pre0 with
  | nil =>
    intro post0 pre post _ h2 h
    cases pre with
    | nil =>
      simp only [List.nil_append, List.cons.injEq, true_and] at h
      exact ⟨rfl, h.symm⟩
    | cons y pre' =>
      simp only [List.nil_append, List.cons_append, List.cons.injEq] at h
      exact absurd (by rw [h.2]; simp) h2
  | cons a pre0 ih =>
    intro post0 pre post h1 h2 h
    simp only [List.mem_cons, not_or] at h1
    cases pre with
    | nil =>
      simp only [List.cons_append, List.nil_append, List.cons.injEq] at h
      exact absurd h.1.symm h1.1
    | cons y pre' =>
      simp only [List.cons_append, List.cons.injEq] at h
      obtain ⟨hp, hq⟩ := ih post0 pre' post h1.2 h2 h.2
      exact ⟨by rw [h.1, hp], hq⟩

/-- A trace without lock events keeps the lock discipline. -/
theorem lockDiscipline_of_no_lock (tr : List Event) (h1 : Event.sched_lock ∉ tr)
    (h2 : Event.sched_unlock ∉ tr) : LockDiscipline tr := by
  refine ⟨?_, ?_, ?_, ?_⟩
  · rw [List.count_eq_zero_of_not_mem h1]; omega
  · rw [List.count_eq_zero_of_not_mem h1, List.count_eq_zero_of_not_mem h2]
  · intro pre post h
    exact absurd (by rw [h]; simp) h1
  · intro pre post h
    exact absurd (by rw [h]; simp) h2

/-- A trace with one lock window, opened right after a successful load and
right before the start and closed before any teardown, keeps the lock
discipline. -/
theorem lockDiscipline_of_window (pre0 mid post0 : List Event) (b b' : binary_s)
    (ret e ret' e' : Int) (hret : 0 ≤ ret)
    (hpre : ∀ ev ∈ pre0, ev ≠ Event.sched_lock ∧ ev ≠ Event.sched_unlock ∧
      ev.isTeardown = false)
    (hmid : ∀ ev ∈ mid, ev ≠ Event.sched_lock ∧ ev ≠ Event.sched_unlock ∧
      ev.isTeardown = false)
    (hpost : ∀ ev ∈ post0, ev ≠ Event.sched_lock ∧ ev ≠ Event.sched_unlock) :
    LockDiscipline (pre0 ++ Event.load_module b ret e :: Event.sched_lock ::
      Event.exec_module b' ret' e' :: (mid ++ Event.sched_unlock :: post0)) := by
  have hl1 : Event.sched_lock ∉ pre0 := fun h => (hpre _ h).1 rfl
  have hu1 : Event.sched_unlock ∉ pre0 := fun h => (hpre _ h).2.1 rfl
  have hl2 : Event.sched_lock ∉ mid := fun h => (hmid _ h).1 rfl
  have hu2 : Event.sched_unlock ∉ mid := fun h => (hmid _ h).2.1 rfl
  have hl3 : Event.sched_lock ∉ post0 := fun h => (hpost _ h).1 rfl
  have hu3 : Event.sched_unlock ∉ post0 := fun h => (hpost _ h).2 rfl
  have hcl : (pre0 ++ Event.load_module b ret e :: Event.sched_lock ::
      Event.exec_module b' ret' e' :: (mid ++ Event.sched_unlock :: post0)).count
        Event.sched_lock = 1 := by
    simp [List.count_append, List.count_cons, List.count_eq_zero_of_not_mem hl1,
      List.count_eq_zero_of_not_mem hl2, List.count_eq_zero_of_not_mem hl3]
  have hcu : (pre0 ++ Event.load_module b ret e :: Event.sched_lock ::
      Event.exec_module b' ret' e' :: (mid ++ Event.sched_unlock :: post0)).count
        Event.sched_unlock = 1 := by
    simp [List.count_append, List.count_cons, List.count_eq_zero_of_not_mem hu1,
      List.count_eq_zero_of_not_mem hu2, List.count_eq_zero_of_not_mem hu3]
  refine ⟨by omega, by omega, ?_, ?_⟩
  · intro pre post h
    have h' : (pre0 ++ [Event.load_module b ret e]) ++ Event.sched_lock ::
        (Event.exec_module b' ret' e' :: (mid ++ Event.sched_unlock :: post0))
        = pre ++ Event.sched_lock :: post := by rw [← h]; simp
    obtain ⟨hp, hq⟩ := split_unique Event.sched_lock _ _ pre post
      (by simp [hl1]) (by simp [hl2, hl3]) h'
    subst hp hq
    exact ⟨⟨pre0, b, ret, e, rfl, hret⟩, ⟨b', ret', e', _, rfl⟩, by simp⟩
  · intro pre post h
    have h' : (pre0 ++ Event.load_module b ret e :: Event.sched_lock ::
        Event.exec_module b' ret' e' :: mid) ++ Event.sched_unlock :: post0
        = pre ++ Event.sched_unlock :: post := by rw [← h]; simp
    obtain ⟨hp, hq⟩ := split_unique Event.sched_unlock _ _ pre post
      (by simp [hu1, hu2]) hu3 h'
    subst hp hq
    refine ⟨by simp, ?_⟩
    intro ev hev
    simp only [List.mem_append, List.mem_cons] at hev
    rcases hev with hev | rfl | rfl | rfl | hev
    · exact (hpre _ hev).2.2
    · rfl
    · rfl
    · rfl
    · exact (hmid _ hev).2.2

/-- C9: on every path through exec the preemption lock is balanced and
confined. In the reduced configuration neither sched_lock nor sched_unlock is
called. In every configuration sched_lock is called at most once, sched_unlock
as often as sched_lock, sched_lock comes right after a successful load_module
and right before exec_module and is followed by a sched_unlock, and
sched_unlock comes after sched_lock and before any unload or release. -/
theorem exec_lock_discipline (C : Call) :
    (C.hook = false →
      Event.sched_lock ∉ C.run.trace ∧ Event.sched_unlock ∉ C.run.trace) ∧
    LockDiscipline C.run.trace := by
  have hcopy : ∀ ev ∈ [Event.kmm_zalloc C.P.binSize C.recordPtr] ++ C.copy.trace,
      ev ≠ Event.sched_lock ∧ ev ≠ Event.sched_unlock ∧ ev.isTeardown = false := by
    intro ev hev
    rcases copy_trace_shape C with h0 | ⟨size, b, h0⟩ <;> rw [h0] at hev <;>
      simp at hev
    · subst hev; simp [Event.isTeardown]
    · rcases hev with rfl | rfl <;> simp [Event.isTeardown]
  rcases run_cases C with ⟨hh, _, hrun⟩ | ⟨hh, _, _, _, hrun⟩ | ⟨hh, _, _, _, _, hrun⟩ |
    ⟨hh, _, _, hrun⟩ | ⟨hh, _, hl, _, hrun⟩ | ⟨hh, _, hl, _, hrun⟩ |
    ⟨hh, _, hrun⟩ | ⟨hh, _, _, hrun⟩ | ⟨hh, _, _, hrun⟩
  · rw [hrun]
    exact ⟨(fun h => by rw [hh] at h; cases h),
      lockDiscipline_of_no_lock _ (by simp) (by simp)⟩
  · rw [hrun]
    exact ⟨(fun h => by rw [hh] at h; cases h),
      lockDiscipline_of_no_lock _ (fun h => (hcopy _ h).1 rfl) (fun h => (hcopy _ h).2.1 rfl)⟩
  · rw [hrun]
    refine ⟨(fun h => by rw [hh] at h; cases h), lockDiscipline_of_no_lock _ ?_ ?_⟩
    · intro h
      rw [List.mem_append] at h
      rcases h with h | h
      · exact (hcopy _ h).1 rfl
      · simp at h
    · intro h
      rw [List.mem_append] at h
      rcases h with h | h
      · exact (hcopy _ h).2.1 rfl
      · simp at h
  · rw [hrun]
    refine ⟨(fun h => by rw [hh] at h; cases h), lockDiscipline_of_no_lock _ ?_ ?_⟩
    · intro h
      rw [List.mem_append] at h
      rcases h with h | h
      · exact (hcopy _ h).1 rfl
      · simp at h
    · intro h
      rw [List.mem_append] at h
      rcases h with h | h
      · exact (hcopy _ h).2.1 rfl
      · simp at h
  · rw [hrun]
    refine ⟨(fun h => by rw [hh] at h; cases h), ?_⟩
    have := lockDiscipline_of_window ([Event.kmm_zalloc C.P.binSize C.recordPtr] ++ C.copy.trace)
      [] [Event.unload_module C.start.bin, Event.binfmt_freeargv C.start.bin,
        Event.kmm_free C.recordPtr, Event.set_errno C.start.errno]
      C.copy.bin C.load.bin C.load.ret C.load.errno C.start.ret C.start.errno hl hcopy
      (by simp) (by simp)
    simpa using this
  · rw [hrun]
    refine ⟨(fun h => by rw [hh] at h; cases h), ?_⟩
    have := lockDiscipline_of_window ([Event.kmm_zalloc C.P.binSize C.recordPtr] ++ C.copy.trace)
      [Event.schedule_unload C.start.ret C.start.bin C.register.ret C.register.errno] []
      C.copy.bin C.load.bin C.load.ret C.load.errno C.start.ret C.start.errno hl hcopy
      (by simp [Event.isTeardown]) (by simp)
    simpa using this
  · rw [hrun]
    exact ⟨fun _ => ⟨by simp, by simp⟩, lockDiscipline_of_no_lock _ (by simp) (by simp)⟩
  · rw [hrun]
    exact ⟨fun _ => ⟨by simp, by simp⟩, lockDiscipline_of_no_lock _ (by simp) (by simp)⟩
  · rw [hrun]
    exact ⟨fun _ => ⟨by simp, by simp⟩, lockDiscipline_of_no_lock _ (by simp) (by simp)⟩

/-- In the reduced configuration the record that reaches load_module has a
null argv field, whatever argv the caller passes. -/
theorem exec_reduced_argv_null (C : Call) (hh : C.hook = false) (b : binary_s) (ret e : Int)
    (h : Event.load_module b ret e ∈ C.run.trace) : b.argv = 0 := by
  rcases run_cases C with ⟨hh', _⟩ | ⟨hh', _⟩ | ⟨hh', _⟩ | ⟨hh', _⟩ | ⟨hh', _⟩ | ⟨hh', _⟩ |
    ⟨_, _, hrun⟩ | ⟨_, _, _, hrun⟩ | ⟨_, _, _, hrun⟩
  any_goals (rw [hh] at hh'; cases hh')
  all_goals
    rw [hrun] at h
    simp at h
    rw [h.1]
    rfl

/-- In the exit-hook configuration without isolation the record that reaches
load_module holds the caller's argv pointer. -/
theorem exec_hook_borrow_passes_argv (C : Call) (hh : C.hook = true) (hi : C.isolated = false)
    (b : binary_s) (ret e : Int) (h : Event.load_module b ret e ∈ C.run.trace) :
    b.argv = C.argv.addr := by
  have hbin : C.copy.bin.argv = C.argv.addr := by
    simp [Call.copy, binfmt_copyargv, binfmt_copyargv_borrow, hi]
  have hnil : C.copy.trace = [] := by
    simp [Call.copy, binfmt_copyargv, binfmt_copyargv_borrow, hi]
  rcases run_cases C with ⟨_, _, hrun⟩ | ⟨_, _, _, _, hrun⟩ | ⟨_, _, _, _, _, hrun⟩ |
    ⟨_, _, _, hrun⟩ | ⟨_, _, _, _, hrun⟩ | ⟨_, _, _, _, hrun⟩ |
    ⟨hh', _⟩ | ⟨hh', _⟩ | ⟨hh', _⟩
  any_goals (rw [hh] at hh'; cases hh')
  all_goals
    rw [hrun] at h
    simp [hnil] at h
  all_goals
    rw [h.1]
    exact hbin

/-- C10 fails on the code: in the reduced configuration, launched with the
non-null argv pointer 64 of the list ["true", "-x"], exec starts the task 7
and the record it passed to load_module and to exec_module has a null argv
field. -/
theorem exec_reduced_drops_argv :
    (sampleCall false false (sampleCollab 0 7 0)).argv.addr = 64 ∧
    (sampleCall false false (sampleCollab 0 7 0)).run.ret = .ok 7 ∧
    (sampleCall false false (sampleCollab 0 7 0)).run.trace
      = [Event.load_module ⟨77, 0, 0, 0, 0, 0⟩ 0 2,
         Event.exec_module ⟨77, 0, 0, 0, 0, 1⟩ 7 11] := by
  decide

/-! ## The failing and the empty runs of binfmt_copyargv -/

/-- The run of `binfmt_copyargv` in the isolated configuration on a non-null
argv whose first 257 entries are all non-null: -E2BIG, no call, null argument
fields, memory untouched. -/
theorem binfmt_copyargv_isolated_tooBig (P : Platform) (kmm_malloc : Nat → Nat) (bin : binary_s)
    (mem : Mem) (argv : ArgVec) (haddr : argv.addr ≠ 0)
    (hall : ∀ i, i < MAX_EXEC_ARGS + 1 → argv.entry i ≠ none) :
    binfmt_copyargv_isolated P kmm_malloc bin mem argv
      = ⟨.ok (-P.E2BIG), { bin with argv := 0, argbuffer := 0 }, mem, []⟩ := by
  have hc : countLoop P argv.entry (MAX_EXEC_ARGS + 1) 0 0 0 = .ok .tooBig :=
    (countLoop_tooBig_iff P argv.entry (MAX_EXEC_ARGS + 1) 0 0 0 (Nat.zero_le _)
      (by omega)).mpr (by simpa using hall)
  unfold binfmt_copyargv_isolated
  simp only [ne_eq, haddr, not_false_eq_true, if_true, hc]

/-- C11: in the isolated configuration, for a null argv and for a non-null
argv whose first entry is null, binfmt_copyargv returns OK whatever the
allocator would answer, calls no allocator, leaves the record's argv and
argbuffer both null and leaves memory as it was. -/
theorem binfmt_copyargv_no_arguments (P : Platform) (kmm_malloc : Nat → Nat) (bin : binary_s)
    (mem : Mem) (argv : ArgVec) (h : argv.addr = 0 ∨ argv.entry 0 = none)
    (r : CopyResult) (hr : r = binfmt_copyargv P true kmm_malloc bin mem argv) :
    r.ret = .ok OK ∧ r.trace = [] ∧ r.bin.argv = 0 ∧ r.bin.argbuffer = 0 ∧ r.mem = mem := by
  have hr' : r = binfmt_copyargv_isolated P kmm_malloc bin mem argv := by
    rw [hr]; simp [binfmt_copyargv]
  rw [binfmt_copyargv_isolated_empty P kmm_malloc bin mem argv h] at hr'
  subst hr'
  exact ⟨rfl, rfl, rfl, rfl, rfl⟩

/-- C11 at a null argv and at an array whose first entry is null, on a record
whose argument fields hold stale values. -/
theorem binfmt_copyargv_no_arguments_witness :
    ((binfmt_copyargv target32 true (fun _ => 4096) staleBin blankMem
        ⟨0, fun _ => some []⟩).ret = .ok OK ∧
      (binfmt_copyargv target32 true (fun _ => 4096) staleBin blankMem
        ⟨0, fun _ => some []⟩).trace = [] ∧
      (binfmt_copyargv target32 true (fun _ => 4096) staleBin blankMem
        ⟨0, fun _ => some []⟩).bin.argv = 0 ∧
      (binfmt_copyargv target32 true (fun _ => 4096) staleBin blankMem
        ⟨0, fun _ => some []⟩).bin.argbuffer = 0) ∧
    ((binfmt_copyargv target32 true (fun _ => 4096) staleBin blankMem emptyArgv).ret = .ok OK ∧
      (binfmt_copyargv target32 true (fun _ => 4096) staleBin blankMem emptyArgv).trace = [] ∧
      (binfmt_copyargv target32 true (fun _ => 4096) staleBin blankMem emptyArgv).bin.argv
        = 0 ∧
      (binfmt_copyargv target32 true (fun _ => 4096) staleBin blankMem
        emptyArgv).bin.argbuffer = 0) :=
  have h1 := binfmt_copyargv_no_arguments target32 (fun _ => 4096) staleBin blankMem
    ⟨0, fun _ => some []⟩ (Or.inl rfl) _ rfl
  have h2 := binfmt_copyargv_no_arguments target32 (fun _ => 4096) staleBin blankMem
    emptyArgv (Or.inr rfl) _ rfl
  ⟨⟨h1.1, h1.2.1, h1.2.2.1, h1.2.2.2.1⟩, ⟨h2.1, h2.2.1, h2.2.2.1, h2.2.2.2.1⟩⟩

/-- The counting loop over a null-terminated list of strings, with the
wrap-around of `size_t`: it ends at the terminator with the number of strings
and the sum of their bytes modulo the number of values of `size_t`. -/
theorem countLoop_list_mod (P : Platform) (argv : Nat → Option (List UInt8))
    (rest : List (List UInt8)) :
    ∀ (fuel i asz na : Nat),
      (∀ j, j ≤ rest.length → argv (i + j) = rest[j]?) →
      (∀ s ∈ rest, (0 : UInt8) ∉ s) →
      rest.length < fuel → na + rest.length ≤ MAX_EXEC_ARGS →
      asz < P.sizeMod →
      countLoop P argv fuel i asz na
        = .ok (.done ((asz + strBytes rest) % P.sizeMod) (na + rest.length)) := by
  induction rest with
  | nil =>
    intro fuel i asz na harg _ hfuel _ hasz
    cases fuel with
    | zero => simp at hfuel
    | succ fuel =>
      have h0 := harg 0 (by simp)
      simp at h0
      simp [countLoop, h0, strBytes, Nat.mod_eq_of_lt hasz]
  | cons s rest ih =>
    intro fuel i asz na harg hnul hfuel hna hasz
    cases fuel with
    | zero => simp at hfuel
    | succ fuel =>
      have h0 := harg 0 (by simp)
      simp at h0
      have hs : strlen s = s.length := strlen_eq_length s (hnul s (by simp))
      simp only [List.length_cons] at hfuel hna
      have hle : ¬ (na + 1 > MAX_EXEC_ARGS) := by omega
      have hrec := ih fuel (i + 1) ((asz + (s.length + 1)) % P.sizeMod) (na + 1)
        (fun j hj => by
          have := harg (j + 1) (by simp; omega)
          simpa [Nat.add_assoc, Nat.add_comm 1 j] using this)
        (fun t ht => hnul t (by simp [ht]))
        (by omega) (by omega) (Nat.mod_lt _ (sizeMod_pos P))
      simp only [countLoop, h0, hs, hle, if_false, hrec, strBytes_cons, List.length_cons,
        Nat.mod_add_mod]
      have e1 : asz + (s.length + 1) + strBytes rest = asz + (s.length + 1 + strBytes rest) := by
        omega
      have e2 : na + 1 + rest.length = na + (rest.length + 1) := by omega
      rw [e1, e2]

/-- When the buffer size of a list does not wrap, the counted size is the
bytes of the strings and the requested size is the size of the pointer array
plus the bytes of the strings. -/
theorem requestSize_of_fit (P : Platform) (args : List (List UInt8))
    (hfit : (args.length + 1) * P.ptrSize + strBytes args < P.sizeMod) :
    countedSize P args = strBytes args ∧
    requestSize P args = (args.length + 1) * P.ptrSize + strBytes args := by
  have h1 : strBytes args % P.sizeMod = strBytes args := Nat.mod_eq_of_lt (by omega)
  have h2 : ((args.length + 1) * P.ptrSize) % P.sizeMod = (args.length + 1) * P.ptrSize :=
    Nat.mod_eq_of_lt (by omega)
  unfold requestSize countedSize
  rw [h1, h2, Nat.mod_eq_of_lt hfit]
  exact ⟨rfl, rfl⟩

/-- The run of `binfmt_copyargv` in the isolated configuration on a
null-terminated list of at most 256 strings, up to the allocation: nothing is
requested when the counted size is zero; otherwise the requested size is
passed to `kmm_malloc`, and a null answer ends the call with -ENOMEM. -/
theorem binfmt_copyargv_isolated_request (P : Platform) (kmm_malloc : Nat → Nat)
    (bin : binary_s) (mem : Mem) (argv : ArgVec) (args : List (List UInt8))
    (haddr : argv.addr ≠ 0)
    (hargs : ∀ i, i ≤ args.length → argv.entry i = args[i]?)
    (hnul : ∀ s ∈ args, (0 : UInt8) ∉ s) (hn : args.length ≤ MAX_EXEC_ARGS) :
    (countedSize P args = 0 →
      binfmt_copyargv_isolated P kmm_malloc bin mem argv
        = ⟨.ok OK, { bin with argv := 0, argbuffer := 0 }, mem, []⟩) ∧
    (0 < countedSize P args → kmm_malloc (requestSize P args) = 0 →
      binfmt_copyargv_isolated P kmm_malloc bin mem argv
        = ⟨.ok (-P.ENOMEM), { bin with argv := 0, argbuffer := 0 }, mem,
            [Event.kmm_malloc (requestSize P args) 0]⟩) ∧
    (0 < countedSize P args →
      (binfmt_copyargv_isolated P kmm_malloc bin mem argv).trace
        = [Event.kmm_malloc (requestSize P args) (kmm_malloc (requestSize P args))]) := by
  have hcount := countLoop_list_mod P argv.entry args (MAX_EXEC_ARGS + 1) 0 0 0
    (fun j hj => by simpa using hargs j hj) hnul (by omega) (by omega) (sizeMod_pos P)
  simp only [Nat.zero_add] at hcount
  refine ⟨?_, ?_, ?_⟩
  · intro h0
    unfold countedSize at h0
    unfold binfmt_copyargv_isolated
    simp [haddr, hcount, h0]
  · intro hpos hfail
    unfold requestSize at hfail
    unfold countedSize at hpos hfail
    unfold binfmt_copyargv_isolated
    simp only [ne_eq, haddr, not_false_eq_true, if_true, hcount, gt_iff_lt, hpos, hfail,
      requestSize, countedSize]
  · intro hpos
    unfold countedSize at hpos
    unfold binfmt_copyargv_isolated
    simp only [ne_eq, haddr, not_false_eq_true, if_true, hcount, gt_iff_lt, hpos,
      requestSize, countedSize]
    split
    · rfl
    · split
      · rfl
      · split <;> rfl

/-- C12: in the isolated configuration, for every null-terminated list of at
most 256 strings for which a buffer is requested (the counted size is not
zero, as for every list of 1 to 256 strings whose size does not wrap) and
kmm_malloc answers null, binfmt_copyargv returns -ENOMEM, the record's argv
and argbuffer are both null, memory is as it was before the call, and the
failed request is the only call. -/
theorem binfmt_copyargv_nomem (P : Platform) (kmm_malloc : Nat → Nat) (bin : binary_s)
    (mem : Mem) (argv : ArgVec) (args : List (List UInt8))
    (haddr : argv.addr ≠ 0)
    (hargs : ∀ i, i ≤ args.length → argv.entry i = args[i]?)
    (hnul : ∀ s ∈ args, (0 : UInt8) ∉ s) (hn : args.length ≤ MAX_EXEC_ARGS)
    (hreq : 0 < countedSize P args) (hfail : kmm_malloc (requestSize P args) = 0)
    (r : CopyResult) (hr : r = binfmt_copyargv P true kmm_malloc bin mem argv) :
    r.ret = .ok (-P.ENOMEM) ∧ r.bin.argv = 0 ∧ r.bin.argbuffer = 0 ∧ r.mem = mem ∧
    r.trace = [Event.kmm_malloc (requestSize P args) 0] := by
  have hr' : r = binfmt_copyargv_isolated P kmm_malloc bin mem argv := by
    rw [hr]; simp [binfmt_copyargv]
  rw [(binfmt_copyargv_isolated_request P kmm_malloc bin mem argv args haddr hargs hnul
    hn).2.1 hreq hfail] at hr'
  subst hr'
  exact ⟨rfl, rfl, rfl, rfl, rfl⟩

/-- C12 at the list ["true", "-x"] with an allocator that has no memory, on a
record whose argument fields hold stale values. -/
theorem binfmt_copyargv_nomem_witness :
    (binfmt_copyargv target32 true (fun _ => 0) staleBin blankMem
      (ArgVec.ofList 64 trueArgs)).ret = .ok (-target32.ENOMEM) ∧
    (binfmt_copyargv target32 true (fun _ => 0) staleBin blankMem
      (ArgVec.ofList 64 trueArgs)).bin.argv = 0 ∧
    (binfmt_copyargv target32 true (fun _ => 0) staleBin blankMem
      (ArgVec.ofList 64 trueArgs)).bin.argbuffer = 0 ∧
    (binfmt_copyargv target32 true (fun _ => 0) staleBin blankMem
      (ArgVec.ofList 64 trueArgs)).mem = blankMem ∧
    (binfmt_copyargv target32 true (fun _ => 0) staleBin blankMem
      (ArgVec.ofList 64 trueArgs)).trace = [Event.kmm_malloc 20 0] :=
  binfmt_copyargv_nomem target32 (fun _ => 0) staleBin blankMem (ArgVec.ofList 64 trueArgs)
    trueArgs (by decide) (fun _ _ => rfl) (by decide) (by decide) (by decide) rfl _ rfl

/-- C13, as stated, fails: on a record whose argv and argbuffer fields hold 22
and 33, a call that fails for lack of memory leaves a record that is not the
record before the call. -/
theorem binfmt_copyargv_failure_record_counterexample :
    (binfmt_copyargv target32 true (fun _ => 0) staleBin blankMem
      (ArgVec.ofList 64 trueArgs)).ret = .ok (-target32.ENOMEM) ∧
    staleBin.argv = 22 ∧ staleBin.argbuffer = 33 ∧
    (binfmt_copyargv target32 true (fun _ => 0) staleBin blankMem
      (ArgVec.ofList 64 trueArgs)).bin ≠ staleBin := by
  decide

/-- C13, amended: on every call of binfmt_copyargv that fails (returns a
negative value), the record after the call is the record before the call with
its argv and argbuffer fields set to null; so it is the record before the call
when those two fields were null on entry. -/
theorem binfmt_copyargv_failure_record (P : Platform) (isolated : Bool)
    (kmm_malloc : Nat → Nat) (bin : binary_s) (mem : Mem) (argv : ArgVec) (v : Int)
    (r : CopyResult) (hr : r = binfmt_copyargv P isolated kmm_malloc bin mem argv)
    (hret : r.ret = .ok v) (hv : v < 0) :
    r.bin = { bin with argv := 0, argbuffer := 0 } ∧
    (bin.argv = 0 → bin.argbuffer = 0 → r.bin = bin) := by
  have key : r.bin = { bin with argv := 0, argbuffer := 0 } := by
    cases isolated with
    | false =>
      rw [hr] at hret
      simp only [binfmt_copyargv, binfmt_copyargv_borrow, Bool.false_eq_true, if_false,
        Except.ok.injEq] at hret
      unfold OK at hret
      omega
    | true =>
      have hr' : binfmt_copyargv_isolated P kmm_malloc bin mem argv = r := by
        rw [hr]; simp [binfmt_copyargv]
      rcases binfmt_copyargv_isolated_cases P kmm_malloc bin mem argv r hr' with
        h1 | h1 | ⟨size, h1⟩ | ⟨size, b, _, h1 | ⟨e, h1⟩, _, _⟩
      · exact h1.2.2
      · exact h1.2.2
      · exact h1.2.2
      · rw [h1] at hret
        have := Except.ok.inj hret
        unfold OK at this
        omega
      · rw [h1] at hret; cases hret
  refine ⟨key, fun h1 h2 => ?_⟩
  rw [key]
  cases bin
  simp only [binary_s.mk.injEq, true_and, and_true] at h1 h2 ⊢
  exact ⟨h1.symm, h2.symm⟩

/-- C13, amended, at the call that fails for lack of memory on a record whose
argument fields hold stale values. -/
theorem binfmt_copyargv_failure_record_witness :
    (binfmt_copyargv target32 true (fun _ => 0) staleBin blankMem
      (ArgVec.ofList 64 trueArgs)).bin = { staleBin with argv := 0, argbuffer := 0 } :=
  (binfmt_copyargv_failure_record target32 true (fun _ => 0) staleBin blankMem
    (ArgVec.ofList 64 trueArgs) (-12) _ rfl (by decide) (by decide)).1

/-- C16, as stated, fails: for a non-null array whose first entry is null the
record's argv is null after the call, nothing was allocated, and no pointer
can be loaded through argv. -/
theorem binfmt_copyargv_empty_list_counterexample :
    emptyArgv.addr ≠ 0 ∧ emptyArgv.entry 0 = none ∧
    (binfmt_copyargv target32 true (fun _ => 4096) staleBin blankMem emptyArgv).bin.argv = 0 ∧
    (binfmt_copyargv target32 true (fun _ => 4096) staleBin blankMem emptyArgv).trace = [] ∧
    loadPtr target32.ptrSize
      (binfmt_copyargv target32 true (fun _ => 4096) staleBin blankMem emptyArgv).mem
      (binfmt_copyargv target32 true (fun _ => 4096) staleBin blankMem emptyArgv).bin.argv
      = none := by
  decide

/-- C16, amended: in the isolated configuration, for a non-null array whose
first entry is null, binfmt_copyargv returns OK and produces no buffer: it
calls no allocator, writes no memory and leaves the record's argv and
argbuffer null. -/
theorem binfmt_copyargv_empty_list (P : Platform) (kmm_malloc : Nat → Nat) (bin : binary_s)
    (mem : Mem) (argv : ArgVec) (haddr : argv.addr ≠ 0) (h0 : argv.entry 0 = none)
    (r : CopyResult) (hr : r = binfmt_copyargv P true kmm_malloc bin mem argv) :
    r.ret = .ok OK ∧ r.trace = [] ∧ r.mem = mem ∧ r.bin.argv = 0 ∧ r.bin.argbuffer = 0 := by
  have hr' : r = binfmt_copyargv_isolated P kmm_malloc bin mem argv := by
    rw [hr]; simp [binfmt_copyargv]
  rw [binfmt_copyargv_isolated_empty P kmm_malloc bin mem argv (Or.inr h0)] at hr'
  subst hr'
  exact ⟨rfl, rfl, rfl, rfl, rfl⟩

/-- C16, amended, at the array whose first entry is null. -/
theorem binfmt_copyargv_empty_list_witness :
    (binfmt_copyargv target32 true (fun _ => 4096) staleBin blankMem emptyArgv).ret = .ok OK ∧
    (binfmt_copyargv target32 true (fun _ => 4096) staleBin blankMem emptyArgv).trace = [] ∧
    (binfmt_copyargv target32 true (fun _ => 4096) staleBin blankMem emptyArgv).mem
      = blankMem ∧
    (binfmt_copyargv target32 true (fun _ => 4096) staleBin blankMem emptyArgv).bin.argv = 0 ∧
    (binfmt_copyargv target32 true (fun _ => 4096) staleBin blankMem emptyArgv).bin.argbuffer
      = 0 :=
  binfmt_copyargv_empty_list target32 (fun _ => 4096) staleBin blankMem emptyArgv
    (by decide) rfl _ rfl

/-! ## exec: too many arguments -/

/-- The argument transfer changes no field of the record but argv and
argbuffer. -/
theorem copy_bin_fields (C : Call) :
    C.copy.bin.filename = C.filename ∧ C.copy.bin.exports = C.exports ∧
    C.copy.bin.nexports = C.nexports ∧ C.copy.bin.priv = 0 := by
  unfold Call.copy
  cases C.isolated with
  | false => simp [binfmt_copyargv, binfmt_copyargv_borrow, initBin, zeroBin]
  | true =>
    simp only [binfmt_copyargv, if_true]
    rcases binfmt_copyargv_isolated_cases C.P C.E.kmm_malloc
      (initBin C.filename C.exports C.nexports) C.mem C.argv _ rfl with
      h1 | h1 | ⟨size, h1⟩ | ⟨size, b, _, _, _, h1⟩
    · rw [h1.2.2]; simp [initBin, zeroBin]
    · rw [h1.2.2]; simp [initBin, zeroBin]
    · rw [h1.2.2]; simp [initBin, zeroBin]
    · rw [h1]; simp [initBin, zeroBin]

/-- C14: in the isolated exit-hook configuration, for every call of exec whose
record is allocated and whose argument array has its first 300 entries all
non-null, exec returns ERROR, its one call of set_errno passes E2BIG, it calls
neither load_module, sched_lock, exec_module, schedule_unload nor
unload_module, and it frees the record exactly once: the trace is kmm_zalloc,
kmm_free of the record, set_errno(E2BIG). -/
theorem exec_too_many_arguments (C : Call) (hh : C.hook = true) (hi : C.isolated = true)
    (hE : 0 < C.P.E2BIG) (hp : C.recordPtr ≠ 0) (haddr : C.argv.addr ≠ 0)
    (hall : ∀ i, i < 300 → C.argv.entry i ≠ none) :
    C.run.ret = .ok ERROR ∧
    errnoWritten C.run.trace = [C.P.E2BIG] ∧
    C.run.trace = [Event.kmm_zalloc C.P.binSize C.recordPtr, Event.kmm_free C.recordPtr,
      Event.set_errno C.P.E2BIG] ∧
    (∀ ev ∈ C.run.trace, ev.isLoad = false ∧ ev ≠ Event.sched_lock ∧ ev.isStart = false ∧
      ev.isScheduleUnload = false ∧ ev.isUnload = false) ∧
    C.run.trace.countP Event.isRecordFree = 1 := by
  have hcopy : C.copy = ⟨.ok (-C.P.E2BIG),
      { initBin C.filename C.exports C.nexports with argv := 0, argbuffer := 0 }, C.mem, []⟩ := by
    unfold Call.copy
    rw [hi]
    simp only [binfmt_copyargv, if_true]
    exact binfmt_copyargv_isolated_tooBig C.P C.E.kmm_malloc _ C.mem C.argv haddr
      (fun i hi' => hall i (by unfold MAX_EXEC_ARGS at hi'; omega))
  have hrun := run_copy_fail C hh hp (-C.P.E2BIG) (by rw [hcopy]) (by omega)
  rw [hcopy] at hrun
  simp only [List.append_nil, neg_neg, List.singleton_append] at hrun
  rw [hrun]
  refine ⟨rfl, by simp [errnoWritten], rfl, ?_, by simp [Event.isRecordFree]⟩
  intro ev hev
  simp only [List.mem_cons, List.mem_singleton, List.not_mem_nil, or_false] at hev
  rcases hev with rfl | rfl | rfl <;>
    simp [Event.isLoad, Event.isStart, Event.isScheduleUnload, Event.isUnload]

/-- C14 at the sample launch with an argument array that is never
terminated. -/
theorem exec_too_many_arguments_witness :
    (Call.mk target32 true true (sampleCollab 0 7 0) blankMem 77 endlessArgv 0 0).run.ret
      = .ok ERROR ∧
    (Call.mk target32 true true (sampleCollab 0 7 0) blankMem 77 endlessArgv 0 0).run.trace
      = [Event.kmm_zalloc 64 8192, Event.kmm_free 8192, Event.set_errno 7] :=
  have h := exec_too_many_arguments
    (Call.mk target32 true true (sampleCollab 0 7 0) blankMem 77 endlessArgv 0 0)
    rfl rfl (by decide) (by decide) (by decide) (fun _ _ hnone => Option.noConfusion hnone)
  ⟨h.1, h.2.2.1⟩

/-! ## The size of the buffer -/

/-- The bytes of `n` entries that hold one string. -/
theorem strBytes_replicate (n : Nat) (s : List UInt8) :
    strBytes (List.replicate n s) = n * (s.length + 1) := by
  induction n with
  | zero => simp [strBytes]
  | succ n ih => rw [List.replicate_succ, strBytes_cons, ih]; ring

/-- A string of bytes 1 holds no null byte. -/
theorem not_nul_replicate (n m : Nat) :
    ∀ s ∈ List.replicate n (List.replicate m (1 : UInt8)), (0 : UInt8) ∉ s := by
  intro s hs h0
  rw [List.eq_of_mem_replicate hs] at h0
  exact absurd (List.eq_of_mem_replicate h0) (by decide)

/-- In the isolated configuration `binfmt_copyargv` is its first body. -/
theorem binfmt_copyargv_true (P : Platform) (kmm_malloc : Nat → Nat) (bin : binary_s)
    (mem : Mem) (argv : ArgVec) :
    binfmt_copyargv P true kmm_malloc bin mem argv
      = binfmt_copyargv_isolated P kmm_malloc bin mem argv := by
  simp [binfmt_copyargv]

/-- The first round of the copying loop leaves the block when the string does
not fit behind the cursor. -/
theorem copyLoop_overrun (P : Platform) (blk : Block) (binargv : Nat)
    (argv : Nat → Option (List UInt8)) (fuel i ptr : Nat) (m : Mem) (s : List UInt8)
    (h0 : argv i = some s) (hnul : (0 : UInt8) ∉ s) (hlen : s.length + 1 < P.sizeMod)
    (hover : blk.base + blk.size < ptr + (s.length + 1)) :
    copyLoop P blk binargv argv (fuel + 1) i ptr m = .error .outOfBounds := by
  have hs : strlen s = s.length := strlen_eq_length s hnul
  have hmod : (s.length + 1) % P.sizeMod = s.length + 1 := Nat.mod_eq_of_lt hlen
  have htake : (s ++ [0]).take (s.length + 1) = s ++ [0] :=
    List.take_of_length_le (by simp)
  have hsb : ∀ m1, storeBytes blk m1 ptr (s ++ [0]) = none := by
    intro m1
    have hl : (s ++ [(0 : UInt8)]).length = s.length + 1 := by simp
    unfold storeBytes
    rw [hl]
    have : ¬ (blk.base ≤ ptr ∧ ptr + (s.length + 1) ≤ blk.base + blk.size) := by omega
    simp [this]
  simp only [copyLoop, h0, hs, hmod, htake, hsb]
  cases storePtr P.ptrSize blk m (binargv + i * P.ptrSize) ptr <;> rfl

/-- The run of `binfmt_copyargv` in the isolated configuration on a list whose
requested size is smaller than the pointer array and the first string
together: one allocation, and the first copy leaves the allocated block. -/
theorem binfmt_copyargv_isolated_overrun (P : Platform) (kmm_malloc : Nat → Nat)
    (bin : binary_s) (mem : Mem) (argv : ArgVec) (s : List UInt8) (rest : List (List UInt8))
    (haddr : argv.addr ≠ 0)
    (hargs : ∀ i, i ≤ (s :: rest).length → argv.entry i = (s :: rest)[i]?)
    (hnul : ∀ t ∈ s :: rest, (0 : UInt8) ∉ t) (hn : (s :: rest).length ≤ MAX_EXEC_ARGS)
    (hreq : 0 < countedSize P (s :: rest))
    (hb : kmm_malloc (requestSize P (s :: rest)) ≠ 0)
    (hlen : s.length + 1 < P.sizeMod)
    (hover : requestSize P (s :: rest)
      < ((s :: rest).length + 1) * P.ptrSize % P.sizeMod + (s.length + 1)) :
    (binfmt_copyargv_isolated P kmm_malloc bin mem argv).ret = .error .outOfBounds ∧
    (binfmt_copyargv_isolated P kmm_malloc bin mem argv).trace
      = [Event.kmm_malloc (requestSize P (s :: rest))
          (kmm_malloc (requestSize P (s :: rest)))] := by
  have hcount := countLoop_list_mod P argv.entry (s :: rest) (MAX_EXEC_ARGS + 1) 0 0 0
    (fun j hj => by simpa using hargs j hj) hnul (by omega) (by omega) (sizeMod_pos P)
  simp only [Nat.zero_add] at hcount
  have h0 : argv.entry 0 = some s := by simpa using hargs 0 (by simp)
  have hcl := copyLoop_overrun P
    ⟨kmm_malloc (requestSize P (s :: rest)), requestSize P (s :: rest)⟩
    (kmm_malloc (requestSize P (s :: rest))) argv.entry MAX_EXEC_ARGS 0
    (kmm_malloc (requestSize P (s :: rest))
      + ((s :: rest).length + 1) * P.ptrSize % P.sizeMod) mem s h0
    (hnul s (by simp)) hlen (by simp only []; omega)
  unfold requestSize countedSize at hcl hb
  unfold countedSize at hreq
  unfold binfmt_copyargv_isolated
  simp only [ne_eq, haddr, not_false_eq_true, if_true, hcount, gt_iff_lt, hreq, hb, if_false,
    hcl, requestSize, countedSize, and_self]

/-- The counted size, written out. -/
theorem countedSize_eq (P : Platform) (args : List (List UInt8)) :
    countedSize P args = strBytes args % P.sizeMod := rfl

/-- The requested size, written out. -/
theorem requestSize_eq (P : Platform) (args : List (List UInt8)) :
    requestSize P args
      = (((args.length + 1) * P.ptrSize) % P.sizeMod + strBytes args % P.sizeMod)
          % P.sizeMod := rfl

/-- C17, as stated, fails: on a 32-bit target, for the list of 256 entries that
all hold the address of one string of 2^24 - 1 bytes, the size of the claim is
257 * 4 + 2^32 bytes, and binfmt_copyargv requests no allocation at all: it
returns OK and leaves argv null. -/
theorem binfmt_copyargv_request_counterexample :
    aliasedArgs.length = 256 ∧
    (aliasedArgs.length + 1) * target32.ptrSize + strBytes aliasedArgs = 4294968324 ∧
    (binfmt_copyargv target32 true (fun _ => 4096) staleBin blankMem
      (ArgVec.ofList 64 aliasedArgs)).trace = [] ∧
    (binfmt_copyargv target32 true (fun _ => 4096) staleBin blankMem
      (ArgVec.ofList 64 aliasedArgs)).ret = .ok OK ∧
    (binfmt_copyargv target32 true (fun _ => 4096) staleBin blankMem
      (ArgVec.ofList 64 aliasedArgs)).bin.argv = 0 := by
  have hlen : aliasedArgs.length = 256 := by rw [aliasedArgs, List.length_replicate]
  have hsb : strBytes aliasedArgs = 256 * (2 ^ 24 - 1 + 1) := by
    rw [aliasedArgs, strBytes_replicate, List.length_replicate]
  have hz : countedSize target32 aliasedArgs = 0 := by
    rw [countedSize_eq, hsb]
    decide
  have hrun := (binfmt_copyargv_isolated_request target32 (fun _ => 4096) staleBin blankMem
    (ArgVec.ofList 64 aliasedArgs) aliasedArgs (by decide) (fun _ _ => rfl)
    (not_nul_replicate _ _) (by rw [hlen]; decide)).1 hz
  rw [binfmt_copyargv_true, hrun, hsb, hlen]
  exact ⟨rfl, by decide, rfl, rfl, rfl⟩

/-- C17, amended: in the isolated configuration, for every null-terminated
list of n strings, 1 ≤ n ≤ 256, whose size (n+1)*sizeof(pointer) + sum of
(l_i + 1) is a value of size_t, binfmt_copyargv makes exactly one call of
kmm_malloc, for that size; when the call succeeds, binfmt_copyargv returns OK,
the record's argv and argbuffer are the start of the buffer, entry i of the
array is the start plus (n+1)*sizeof(pointer) plus the sum over j < i of
(l_j + 1), and entry n is null. -/
theorem binfmt_copyargv_layout (P : Platform) (kmm_malloc : Nat → Nat) (bin : binary_s)
    (mem : Mem) (argv : ArgVec) (args : List (List UInt8))
    (hpsz : 0 < P.ptrSize) (haddr : argv.addr ≠ 0)
    (hargs : ∀ i, i ≤ args.length → argv.entry i = args[i]?)
    (hnul : ∀ s ∈ args, (0 : UInt8) ∉ s)
    (hn1 : 1 ≤ args.length) (hn : args.length ≤ MAX_EXEC_ARGS)
    (hfit : (args.length + 1) * P.ptrSize + strBytes args < P.sizeMod)
    (r : CopyResult) (hr : r = binfmt_copyargv P true kmm_malloc bin mem argv) :
    r.trace = [Event.kmm_malloc ((args.length + 1) * P.ptrSize + strBytes args)
      (kmm_malloc ((args.length + 1) * P.ptrSize + strBytes args))] ∧
    (kmm_malloc ((args.length + 1) * P.ptrSize + strBytes args) ≠ 0 →
      r.ret = .ok OK ∧
      r.bin.argv = kmm_malloc ((args.length + 1) * P.ptrSize + strBytes args) ∧
      r.bin.argbuffer = kmm_malloc ((args.length + 1) * P.ptrSize + strBytes args) ∧
      (∀ i, i < args.length →
        loadPtr P.ptrSize r.mem (r.bin.argv + i * P.ptrSize)
          = some (r.bin.argv + (args.length + 1) * P.ptrSize + strBytes (args.take i))) ∧
      loadPtr P.ptrSize r.mem (r.bin.argv + args.length * P.ptrSize) = some 0) := by
  rw [binfmt_copyargv_true] at hr
  by_cases hb : kmm_malloc ((args.length + 1) * P.ptrSize + strBytes args) = 0
  · rw [binfmt_copyargv_isolated_nomem P kmm_malloc bin mem argv args haddr hargs hnul hn1 hn
      hfit hb] at hr
    subst hr
    exact ⟨by rw [hb], fun h => absurd hb h⟩
  · obtain ⟨m', hrun, _, hcells, hlast⟩ := binfmt_copyargv_isolated_run P kmm_malloc bin mem
      argv args _ haddr hargs hnul hn1 hn hfit rfl hb
    rw [hrun] at hr
    subst hr
    refine ⟨rfl, fun _ => ⟨rfl, rfl, rfl, ?_, ?_⟩⟩
    · intro i hi
      exact loadPtr_of_cells _ _ _ _ hpsz (hcells i hi).1
    · exact loadPtr_of_cells _ _ _ _ hpsz hlast

/-- C17, amended, at the list ["true", "-x"] on a 32-bit target, the allocator
answering 4096: one request of 20 bytes, the array at 4096, the strings at
4108 and 4113. -/
theorem binfmt_copyargv_layout_witness :
    (binfmt_copyargv target32 true (fun _ => 4096) staleBin blankMem
      (ArgVec.ofList 64 trueArgs)).trace = [Event.kmm_malloc 20 4096] ∧
    (binfmt_copyargv target32 true (fun _ => 4096) staleBin blankMem
      (ArgVec.ofList 64 trueArgs)).bin.argv = 4096 ∧
    loadPtr 4 (binfmt_copyargv target32 true (fun _ => 4096) staleBin blankMem
      (ArgVec.ofList 64 trueArgs)).mem 4096 = some 4108 ∧
    loadPtr 4 (binfmt_copyargv target32 true (fun _ => 4096) staleBin blankMem
      (ArgVec.ofList 64 trueArgs)).mem 4100 = some 4113 ∧
    loadPtr 4 (binfmt_copyargv target32 true (fun _ => 4096) staleBin blankMem
      (ArgVec.ofList 64 trueArgs)).mem 4104 = some 0 :=
  have h := binfmt_copyargv_layout target32 (fun _ => 4096) staleBin blankMem
    (ArgVec.ofList 64 trueArgs) trueArgs (by decide) (by decide) (fun _ _ => rfl) (by decide)
    (by decide) (by decide) (by decide) _ rfl
  have h2 := h.2 (by decide)
  ⟨h.1, h2.2.1, h2.2.2.2.1 0 (by decide), h2.2.2.2.1 1 (by decide), h2.2.2.2.2⟩

/-- C18 fails on the code: on a 32-bit target, for the list of 256 entries that
all hold the address of one string of 2^24 bytes, whose pointer array and
strings take 257 * 4 + 256 * (2^24 + 1) bytes, binfmt_copyargv requests a
buffer of 1284 bytes, and with the buffer granted the copy of the first
string leaves the buffer. -/
theorem binfmt_copyargv_overrun :
    overrunArgs.length = 256 ∧
    (overrunArgs.length + 1) * target32.ptrSize + strBytes overrunArgs = 4294968580 ∧
    (binfmt_copyargv target32 true (fun _ => 4096) staleBin blankMem
      (ArgVec.ofList 64 overrunArgs)).trace = [Event.kmm_malloc 1284 4096] ∧
    (binfmt_copyargv target32 true (fun _ => 4096) staleBin blankMem
      (ArgVec.ofList 64 overrunArgs)).ret = .error .outOfBounds := by
  have hov : overrunArgs
      = List.replicate (2 ^ 24) 1 :: List.replicate 255 (List.replicate (2 ^ 24) 1) := by
    rw [overrunArgs]
    exact List.replicate_succ _ 255
  have hbig : (List.replicate (2 ^ 24) (1 : UInt8)).length = 2 ^ 24 := List.length_replicate _ _
  have hlen : (List.replicate (2 ^ 24) (1 : UInt8)
      :: List.replicate 255 (List.replicate (2 ^ 24) 1)).length = 256 := by
    rw [List.length_cons, List.length_replicate]
  have hsb : strBytes (List.replicate (2 ^ 24) (1 : UInt8)
      :: List.replicate 255 (List.replicate (2 ^ 24) 1)) = 2 ^ 24 + 1 + 255 * (2 ^ 24 + 1) := by
    rw [strBytes_cons, strBytes_replicate, hbig]
  have hrq : requestSize target32 (List.replicate (2 ^ 24) (1 : UInt8)
      :: List.replicate 255 (List.replicate (2 ^ 24) 1)) = 1284 := by
    rw [requestSize_eq, hsb, hlen]
    decide
  have hcs : countedSize target32 (List.replicate (2 ^ 24) (1 : UInt8)
      :: List.replicate 255 (List.replicate (2 ^ 24) 1)) = 256 := by
    rw [countedSize_eq, hsb]
    decide
  have hnul : ∀ t ∈ List.replicate (2 ^ 24) (1 : UInt8)
      :: List.replicate 255 (List.replicate (2 ^ 24) 1), (0 : UInt8) ∉ t := by
    rw [← hov, overrunArgs]
    exact not_nul_replicate _ _
  have hrun := binfmt_copyargv_isolated_overrun target32 (fun _ => 4096) staleBin blankMem
    (ArgVec.ofList 64 (List.replicate (2 ^ 24) (1 : UInt8)
      :: List.replicate 255 (List.replicate (2 ^ 24) 1)))
    (List.replicate (2 ^ 24) 1) (List.replicate 255 (List.replicate (2 ^ 24) 1))
    (by decide) (fun _ _ => rfl) hnul (by rw [hlen]; decide) (by rw [hcs]; decide)
    (by decide) (by rw [hbig]; decide) (by rw [hrq, hlen, hbig]; decide)
  rw [hrq] at hrun
  rw [binfmt_copyargv_true, hov, hrun.1, hrun.2, hlen, hsb]
  exact ⟨rfl, by decide, rfl, rfl⟩

/-! ## The protocol order of exec -/

/-- C19: on every path through exec, in both configurations, the calls are in
protocol order: load_module at most once; exec_module at most once and only
after a load_module that succeeded; schedule_unload at most once and only
after an exec_module that succeeded; unload_module at most once, only after a
load_module that succeeded and an exec_module that failed; and after kmm_free
of the record no further call that is passed the record. -/
theorem exec_protocol_order (C : Call) : ProtocolOrder (C.run.trace.map Event.kind) := by
  rcases run_cases C with ⟨_, _, hrun⟩ | ⟨_, _, _, _, hrun⟩ | ⟨_, _, _, _, _, hrun⟩ |
    ⟨_, _, hl, hrun⟩ | ⟨_, _, hl, hx, hrun⟩ | ⟨_, _, hl, hx, hrun⟩ |
    ⟨_, hl, hrun⟩ | ⟨_, hl, hx, hrun⟩ | ⟨_, hl, hx, hrun⟩
  · rw [hrun]
    simp only [List.map_cons, List.map_nil, Event.kind]
    decide
  · rw [hrun]
    rcases copy_trace_shape C with h0 | ⟨size, b, h0⟩ <;> rw [h0] <;>
      simp only [List.nil_append, List.cons_append, List.append_nil, List.map_cons,
        List.map_nil, Event.kind] <;> decide
  · rw [hrun]
    rcases copy_trace_shape C with h0 | ⟨size, b, h0⟩ <;> rw [h0] <;>
      simp only [List.nil_append, List.cons_append, List.append_nil, List.map_cons,
        List.map_nil, Event.kind] <;> decide
  · have hl' : ¬ 0 ≤ C.load.ret := by omega
    rw [hrun]
    rcases copy_trace_shape C with h0 | ⟨size, b, h0⟩ <;> rw [h0] <;>
      simp only [List.nil_append, List.cons_append, List.append_nil, List.map_cons,
        List.map_nil, Event.kind, hl', if_false] <;> decide
  · have hx' : ¬ 0 ≤ C.start.ret := by omega
    rw [hrun]
    rcases copy_trace_shape C with h0 | ⟨size, b, h0⟩ <;> rw [h0] <;>
      simp only [List.nil_append, List.cons_append, List.append_nil, List.map_cons,
        List.map_nil, Event.kind, hl, hx', if_true, if_false] <;> decide
  · rw [hrun]
    rcases copy_trace_shape C with h0 | ⟨size, b, h0⟩ <;> rw [h0] <;>
      simp only [List.nil_append, List.cons_append, List.append_nil, List.map_cons,
        List.map_nil, Event.kind, hl, hx, if_true] <;> decide
  · have hl' : ¬ 0 ≤ C.load.ret := by omega
    rw [hrun]
    simp only [List.map_cons, List.map_nil, Event.kind, hl', if_false]
    decide
  · have hx' : ¬ 0 ≤ C.start.ret := by omega
    rw [hrun]
    simp only [List.map_cons, List.map_nil, Event.kind, hl, hx', if_true, if_false]
    decide
  · rw [hrun]
    simp only [List.map_cons, List.map_nil, Event.kind, hl, hx, if_true]
    decide

/-- The protocol order is a real constraint: it rejects a start without a
load, a second load, an unload after a successful start, and a call on the
record after the record was freed. -/
theorem protocolOrder_rejects :
    ¬ ProtocolOrder [Kind.alloc, Kind.lock, Kind.startOk, Kind.unlock] ∧
    ¬ ProtocolOrder [Kind.alloc, Kind.loadOk, Kind.loadOk] ∧
    ¬ ProtocolOrder [Kind.alloc, Kind.loadOk, Kind.lock, Kind.startOk, Kind.unload] ∧
    ¬ ProtocolOrder [Kind.alloc, Kind.loadFail, Kind.freeRecord, Kind.freeArgv] := by
  decide

/-! ## What a transfer that returned has done -/

/-- When the copying loop returns on a list of strings, each of a length that
is a value of `size_t` with its terminator, it stopped at the terminator of
the list and every string lies before the end of the block. -/
theorem copyLoop_ok_bound (P : Platform) (blk : Block) (binargv : Nat)
    (argv : Nat → Option (List UInt8)) (rest : List (List UInt8)) :
    ∀ (fuel i ptr : Nat) (m : Mem) (r : Nat × Nat × Mem),
      (∀ j, j ≤ rest.length → argv (i + j) = rest[j]?) →
      (∀ s ∈ rest, (0 : UInt8) ∉ s) →
      (∀ s ∈ rest, s.length + 1 < P.sizeMod) →
      copyLoop P blk binargv argv fuel i ptr m = .ok r →
      r.1 = i + rest.length ∧ (rest ≠ [] → ptr + strBytes rest ≤ blk.base + blk.size) := by
  induction rest with
  | nil =>
    intro fuel i ptr m r harg _ _ h
    cases fuel with
    | zero => simp [copyLoop] at h
    | succ fuel =>
      have h0 : argv i = none := by simpa using harg 0 (by simp)
      simp only [copyLoop, h0, Except.ok.injEq] at h
      subst h
      exact ⟨by simp, fun hne => absurd rfl hne⟩
  | cons s rest ih =>
    intro fuel i ptr m r harg hnul hlen h
    cases fuel with
    | zero => simp [copyLoop] at h
    | succ fuel =>
      have h0 : argv i = some s := by simpa using harg 0 (by simp)
      have hs : strlen s = s.length := strlen_eq_length s (hnul s (by simp))
      have hmod : (s.length + 1) % P.sizeMod = s.length + 1 :=
        Nat.mod_eq_of_lt (hlen s (by simp))
      have htake : (s ++ [0]).take (s.length + 1) = s ++ [0] :=
        List.take_of_length_le (by simp)
      simp only [copyLoop, h0, hs, hmod, htake] at h
      cases hsp : storePtr P.ptrSize blk m (binargv + i * P.ptrSize) ptr with
      | none => rw [hsp] at h; cases h
      | some m1 =>
        rw [hsp] at h
        simp only [] at h
        cases hsb : storeBytes blk m1 ptr (s ++ [0]) with
        | none => rw [hsb] at h; cases h
        | some m2 =>
          rw [hsb] at h
          simp only [] at h
          have hin : ptr + (s.length + 1) ≤ blk.base + blk.size := by
            unfold storeBytes at hsb
            split at hsb
            · rename_i hc
              have hl : (s ++ [(0 : UInt8)]).length = s.length + 1 := by simp
              rw [hl] at hc
              exact hc.2
            · cases hsb
          obtain ⟨h1, h2⟩ := ih fuel (i + 1) (ptr + (s.length + 1)) m2 r
            (fun j hj => by
              have := harg (j + 1) (by simp; omega)
              simpa [Nat.add_assoc, Nat.add_comm 1 j] using this)
            (fun t ht => hnul t (by simp [ht]))
            (fun t ht => hlen t (by simp [ht])) h
          refine ⟨by rw [h1, List.length_cons]; omega, fun _ => ?_⟩
          rw [strBytes_cons]
          cases rest with
          | nil => simp [strBytes]; exact hin
          | cons t rest =>
            have := h2 (by simp)
            omega

/-- In the isolated configuration, when `binfmt_copyargv` returns after a
granted request on a list of strings, each of a length that is a value of
`size_t` with its terminator, the size of the pointer array and the strings
together is a value of `size_t`: a size that wraps makes the copy leave the
buffer. -/
theorem binfmt_copyargv_isolated_fit (P : Platform) (kmm_malloc : Nat → Nat) (bin : binary_s)
    (mem : Mem) (argv : ArgVec) (args : List (List UInt8))
    (haddr : argv.addr ≠ 0)
    (hargs : ∀ i, i ≤ args.length → argv.entry i = args[i]?)
    (hnul : ∀ s ∈ args, (0 : UInt8) ∉ s)
    (hlen : ∀ s ∈ args, s.length + 1 < P.sizeMod)
    (hn : args.length ≤ MAX_EXEC_ARGS) (hreq : 0 < countedSize P args)
    (hb : kmm_malloc (requestSize P args) ≠ 0) (v : Int)
    (hok : (binfmt_copyargv_isolated P kmm_malloc bin mem argv).ret = .ok v) :
    (args.length + 1) * P.ptrSize + strBytes args < P.sizeMod := by
  have hcount := countLoop_list_mod P argv.entry args (MAX_EXEC_ARGS + 1) 0 0 0
    (fun j hj => by simpa using hargs j hj) hnul (by omega) (by omega) (sizeMod_pos P)
  simp only [Nat.zero_add] at hcount
  have hne : args ≠ [] := by
    intro h
    rw [h] at hreq
    simp [countedSize, strBytes] at hreq
  have hlt : requestSize P args < P.sizeMod := by
    rw [requestSize_eq]
    exact Nat.mod_lt _ (sizeMod_pos P)
  have hA := Nat.mod_le ((args.length + 1) * P.ptrSize) P.sizeMod
  rw [countedSize_eq] at hreq
  rw [requestSize_eq] at hb
  unfold binfmt_copyargv_isolated at hok
  simp only [ne_eq, haddr, not_false_eq_true, if_true, hcount, gt_iff_lt, hreq, hb,
    if_false] at hok
  split at hok
  · cases hok
  · rename_i i p m hcl
    obtain ⟨hi, hbound⟩ := copyLoop_ok_bound P _ _ argv.entry args _ 0 _ mem (i, p, m)
      (fun j hj => by simpa using hargs j hj) hnul hlen hcl
    have hbound := hbound hne
    simp only [Nat.zero_add] at hi
    simp only [] at hbound hi
    split at hok
    · cases hok
    · rename_i m1 hsp
      unfold storePtr at hsp
      split at hsp
      · rename_i hc
        simp only [] at hc
        rw [hi] at hc
        have hmul : (args.length + 1) * P.ptrSize = args.length * P.ptrSize + P.ptrSize := by
          ring
        rw [requestSize_eq] at hlt
        have hAlt : (args.length + 1) * P.ptrSize < P.sizeMod := by omega
        rw [Nat.mod_eq_of_lt hAlt] at hbound hlt
        omega
      · cases hsp

/-- In the isolated configuration, what a call of `binfmt_copyargv` that
returned a value that is not negative has done, for the null-terminated list
of strings behind argv: either it requested nothing and left the record
without arguments, which it does for a null argv and for a list whose counted
size is zero, or the size of the list is a value of `size_t` and the list is
copied to the buffer that `kmm_malloc` answered. -/
theorem binfmt_copyargv_isolated_ok (P : Platform) (kmm_malloc : Nat → Nat) (bin : binary_s)
    (mem : Mem) (argv : ArgVec) (args : List (List UInt8)) (hV : P.Valid)
    (hargs : ∀ i, i ≤ args.length → argv.entry i = args[i]?)
    (hnul : ∀ s ∈ args, (0 : UInt8) ∉ s)
    (hlen : ∀ s ∈ args, s.length + 1 < P.sizeMod) (v : Int)
    (hret : (binfmt_copyargv_isolated P kmm_malloc bin mem argv).ret = .ok v) (hv : 0 ≤ v) :
    ((argv.addr = 0 ∨ strBytes args % P.sizeMod = 0) ∧
      binfmt_copyargv_isolated P kmm_malloc bin mem argv
        = ⟨.ok OK, { bin with argv := 0, argbuffer := 0 }, mem, []⟩) ∨
    (argv.addr ≠ 0 ∧ 1 ≤ args.length ∧ args.length ≤ MAX_EXEC_ARGS ∧
      (args.length + 1) * P.ptrSize + strBytes args < P.sizeMod ∧
      CopiedTo P.ptrSize args (kmm_malloc ((args.length + 1) * P.ptrSize + strBytes args))
        (binfmt_copyargv_isolated P kmm_malloc bin mem argv) mem) := by
  obtain ⟨hpsz, hE, hM, _⟩ := hV
  by_cases haddr : argv.addr = 0
  · exact Or.inl ⟨Or.inl haddr,
      binfmt_copyargv_isolated_empty P kmm_malloc bin mem argv (Or.inl haddr)⟩
  by_cases hn : args.length ≤ MAX_EXEC_ARGS
  · obtain ⟨h1, h2, _⟩ := binfmt_copyargv_isolated_request P kmm_malloc bin mem argv args
      haddr hargs hnul hn
    by_cases hz : countedSize P args = 0
    · exact Or.inl ⟨Or.inr hz, h1 hz⟩
    have hpos : 0 < countedSize P args := Nat.pos_of_ne_zero hz
    by_cases hb : kmm_malloc (requestSize P args) = 0
    · rw [h2 hpos hb] at hret
      have := Except.ok.inj hret
      omega
    have hfit := binfmt_copyargv_isolated_fit P kmm_malloc bin mem argv args haddr hargs hnul
      hlen hn hpos hb v hret
    have hn1 : 1 ≤ args.length := by
      cases args with
      | nil => simp [countedSize, strBytes] at hpos
      | cons s rest => simp
    rw [(requestSize_of_fit P args hfit).2] at hb
    obtain ⟨m', hrun, hframe, hcells, hlast⟩ := binfmt_copyargv_isolated_run P kmm_malloc bin
      mem argv args _ haddr hargs hnul hn1 hn hfit rfl hb
    refine Or.inr ⟨haddr, hn1, hn, hfit, ?_⟩
    rw [hrun]
    refine ⟨hb, rfl, rfl, rfl, ?_, loadPtr_of_cells _ _ _ _ hpsz hlast, hframe⟩
    intro i hi
    obtain ⟨hc1, hc2, hc3⟩ := hcells i hi
    refine ⟨loadPtr_of_cells _ _ _ _ hpsz hc1, ?_⟩
    intro fuel hfuel
    exact readCStr_of_cells _ _ _ _ (hnul _ (List.getElem_mem hi)) hfuel hc2 hc3
  · have hall : ∀ i, i < MAX_EXEC_ARGS + 1 → argv.entry i ≠ none := by
      intro i hi
      have hlt : i < args.length := by omega
      rw [hargs i (by omega), List.getElem?_eq_getElem hlt]
      simp
    rw [binfmt_copyargv_isolated_tooBig P kmm_malloc bin mem argv haddr hall] at hret
    have := Except.ok.inj hret
    omega

/-! ## exec: the successful launch -/

/-- C15: in the exit-hook configuration, when record allocation, argument
transfer, load, start and hook registration all succeed, exec returns the task
identifier given by exec_module and its trace is exactly: kmm_zalloc of the
record, the calls of the argument transfer, load_module(record), sched_lock,
exec_module(record), schedule_unload(pid, record), sched_unlock. The transfer
runs on the zeroed record with filename, exports and nexports set to the
caller's values and keeps these fields. Without isolation it makes no call,
leaves memory as it was and puts the caller's argv pointer in the record. With
isolation, for the null-terminated list of strings behind argv, it either
requests nothing and leaves argv and argbuffer null (for a null argv and for a
list whose counted size is zero) or copies the list to the buffer kmm_malloc
answered: one request of the size of the list, argv and argbuffer at the
buffer, entry i the address of a copy of the i-th string, a null entry after
the last. schedule_unload is called exactly once, and exec calls neither
unload_module, binfmt_freeargv nor kmm_free. -/
theorem exec_success_sequence (C : Call) (hh : C.hook = true) (hprep : C.Prepared)
    (hl : 0 ≤ C.load.ret) (hx : 0 ≤ C.start.ret) (hs : 0 ≤ C.register.ret) :
    C.run.ret = .ok C.start.ret ∧
    C.run.trace = [Event.kmm_zalloc C.P.binSize C.recordPtr] ++ C.copy.trace
      ++ [Event.load_module C.copy.bin C.load.ret C.load.errno, Event.sched_lock,
          Event.exec_module C.load.bin C.start.ret C.start.errno,
          Event.schedule_unload C.start.ret C.start.bin C.register.ret C.register.errno,
          Event.sched_unlock] ∧
    C.run.mem = C.copy.mem ∧
    C.copy = binfmt_copyargv C.P C.isolated C.E.kmm_malloc
      ⟨C.filename, 0, 0, C.exports, C.nexports, 0⟩ C.mem C.argv ∧
    (C.copy.bin.filename = C.filename ∧ C.copy.bin.exports = C.exports ∧
      C.copy.bin.nexports = C.nexports ∧ C.copy.bin.priv = 0) ∧
    (C.isolated = false →
      C.copy.trace = [] ∧ C.copy.mem = C.mem ∧
      C.copy.bin = ⟨C.filename, C.argv.addr, 0, C.exports, C.nexports, 0⟩) ∧
    (C.isolated = true → C.P.Valid → ∀ args : List (List UInt8),
      (∀ i, i ≤ args.length → C.argv.entry i = args[i]?) →
      (∀ s ∈ args, (0 : UInt8) ∉ s ∧ s.length + 1 < C.P.sizeMod) →
      ((C.argv.addr = 0 ∨ strBytes args % C.P.sizeMod = 0) ∧
        C.copy.trace = [] ∧ C.copy.mem = C.mem ∧
        C.copy.bin = ⟨C.filename, 0, 0, C.exports, C.nexports, 0⟩) ∨
      (C.argv.addr ≠ 0 ∧ 1 ≤ args.length ∧ args.length ≤ MAX_EXEC_ARGS ∧
        CopiedTo C.P.ptrSize args
          (C.E.kmm_malloc ((args.length + 1) * C.P.ptrSize + strBytes args)) C.copy C.mem)) ∧
    C.run.trace.countP Event.isScheduleUnload = 1 ∧
    (∀ ev ∈ C.run.trace, ev.isTeardown = false) := by
  obtain ⟨hp, v, hc, hv⟩ := hprep hh
  rw [run_started C hh hp v hc hv hl hx]
  refine ⟨rfl, rfl, rfl, rfl, copy_bin_fields C, ?_, ?_, ?_, ?_⟩
  · intro hi
    unfold Call.copy
    rw [hi]
    exact ⟨rfl, rfl, rfl⟩
  · intro hi hV args hargs hwf
    have hcopy : C.copy = binfmt_copyargv_isolated C.P C.E.kmm_malloc
        (initBin C.filename C.exports C.nexports) C.mem C.argv := by
      unfold Call.copy
      rw [hi]
      exact binfmt_copyargv_true _ _ _ _ _
    rw [hcopy] at hc
    rcases binfmt_copyargv_isolated_ok C.P C.E.kmm_malloc _ C.mem C.argv args hV hargs
      (fun s hs => (hwf s hs).1) (fun s hs => (hwf s hs).2) v hc hv with ⟨h1, h2⟩ | h
    · refine Or.inl ⟨h1, ?_⟩
      rw [hcopy, h2]
      exact ⟨rfl, rfl, rfl⟩
    · refine Or.inr ⟨h.1, h.2.1, h.2.2.1, ?_⟩
      rw [hcopy]
      exact h.2.2.2.2
  · rcases copy_trace_shape C with h0 | ⟨size, b, h0⟩ <;> simp [h0, Event.isScheduleUnload]
  · rcases copy_trace_shape C with h0 | ⟨size, b, h0⟩ <;> simp [h0, Event.isTeardown]

/-- C15 at the launch of the file name at address 77 with the arguments
"true" and "-x" and an empty export table, every collaborator succeeding. With
isolation the two strings are copied to the buffer at 4096: the array holds
4108, 4113 and null, and "true" and "-x" are read back at 4108 and 4113.
Without isolation the record carries the caller's pointer 64. -/
theorem exec_success_sequence_witness :
    ((sampleCall true true (sampleCollab 0 7 0)).run.ret = .ok 7 ∧
      (sampleCall true true (sampleCollab 0 7 0)).run.trace
        = [Event.kmm_zalloc 64 8192, Event.kmm_malloc 20 4096,
           Event.load_module ⟨77, 4096, 4096, 0, 0, 0⟩ 0 2, Event.sched_lock,
           Event.exec_module ⟨77, 4096, 4096, 0, 0, 1⟩ 7 11,
           Event.schedule_unload 7 ⟨77, 4096, 4096, 0, 0, 1⟩ 0 12, Event.sched_unlock] ∧
      (sampleCall true true (sampleCollab 0 7 0)).run.trace.countP Event.isScheduleUnload = 1 ∧
      CopiedTo 4 trueArgs 4096 (sampleCall true true (sampleCollab 0 7 0)).copy blankMem ∧
      loadPtr 4 (sampleCall true true (sampleCollab 0 7 0)).run.mem 4096 = some 4108 ∧
      loadPtr 4 (sampleCall true true (sampleCollab 0 7 0)).run.mem 4100 = some 4113 ∧
      loadPtr 4 (sampleCall true true (sampleCollab 0 7 0)).run.mem 4104 = some 0 ∧
      readCStr (sampleCall true true (sampleCollab 0 7 0)).run.mem 4108 5
        = some [116, 114, 117, 101] ∧
      readCStr (sampleCall true true (sampleCollab 0 7 0)).run.mem 4113 3 = some [45, 120]) ∧
    ((sampleCall false true (sampleCollab 0 7 0)).run.ret = .ok 7 ∧
      (sampleCall false true (sampleCollab 0 7 0)).run.trace
        = [Event.kmm_zalloc 64 8192,
           Event.load_module ⟨77, 64, 0, 0, 0, 0⟩ 0 2, Event.sched_lock,
           Event.exec_module ⟨77, 64, 0, 0, 0, 1⟩ 7 11,
           Event.schedule_unload 7 ⟨77, 64, 0, 0, 0, 1⟩ 0 12, Event.sched_unlock] ∧
      (sampleCall false true (sampleCollab 0 7 0)).copy.bin = ⟨77, 64, 0, 0, 0, 0⟩) :=
  have h := exec_success_sequence (sampleCall true true (sampleCollab 0 7 0)) rfl
    (fun _ => ⟨by decide, 0, by decide, by decide⟩) (by decide) (by decide) (by decide)
  have g := exec_success_sequence (sampleCall false true (sampleCollab 0 7 0)) rfl
    (fun _ => ⟨by decide, 0, by decide, by decide⟩) (by decide) (by decide) (by decide)
  have hC := ((h.2.2.2.2.2.2.1 rfl (by decide) trueArgs (fun _ _ => rfl)
    (by decide)).resolve_left (fun hA => absurd hA.2.1 (by decide))).2.2.2
  ⟨⟨h.1, h.2.1.trans (by decide), h.2.2.2.2.2.2.2.1, hC,
      (congrArg (loadPtr 4 · 4096) h.2.2.1).trans (hC.2.2.2.2.1 0 (by decide)).1,
      (congrArg (loadPtr 4 · 4100) h.2.2.1).trans (hC.2.2.2.2.1 1 (by decide)).1,
      by decide, by decide, by decide⟩,
    ⟨g.1, g.2.1.trans (by decide), (g.2.2.2.2.2.1 rfl).2.2⟩⟩

/-! ## The overflow of the counted size, seen from the claims on the result -/

/-- C1 fails on the code: on a 32-bit target, for the null-terminated list of
n = 128 entries that all hold the address of one string of 2^25 non-null
bytes, whose pointer array and strings take 129 * 4 + 128 * (2^25 + 1) bytes,
binfmt_copyargv asks kmm_malloc for 644 bytes, the allocation succeeds (the
block at 4096), and binfmt_copyargv does not return OK: the copy of the first
string leaves the block. -/
theorem binfmt_copyargv_copies_overflow :
    wrappedArgs.length = 128 ∧
    (∀ s ∈ wrappedArgs, (0 : UInt8) ∉ s ∧ s.length = 2 ^ 25) ∧
    (wrappedArgs.length + 1) * target32.ptrSize + strBytes wrappedArgs = 4294967940 ∧
    (binfmt_copyargv target32 true (fun _ => 4096) staleBin blankMem
      (ArgVec.ofList 64 wrappedArgs)).trace = [Event.kmm_malloc 644 4096] ∧
    (binfmt_copyargv target32 true (fun _ => 4096) staleBin blankMem
      (ArgVec.ofList 64 wrappedArgs)).ret = .error .outOfBounds ∧
    (binfmt_copyargv target32 true (fun _ => 4096) staleBin blankMem
      (ArgVec.ofList 64 wrappedArgs)).ret ≠ .ok OK := by
  have hov : wrappedArgs
      = List.replicate (2 ^ 25) 1 :: List.replicate 127 (List.replicate (2 ^ 25) 1) := by
    rw [wrappedArgs]
    exact List.replicate_succ _ 127
  have hbig : (List.replicate (2 ^ 25) (1 : UInt8)).length = 2 ^ 25 := List.length_replicate _ _
  have hlen : (List.replicate (2 ^ 25) (1 : UInt8)
      :: List.replicate 127 (List.replicate (2 ^ 25) 1)).length = 128 := by
    rw [List.length_cons, List.length_replicate]
  have hsb : strBytes (List.replicate (2 ^ 25) (1 : UInt8)
      :: List.replicate 127 (List.replicate (2 ^ 25) 1)) = 2 ^ 25 + 1 + 127 * (2 ^ 25 + 1) := by
    rw [strBytes_cons, strBytes_replicate, hbig]
  have hrq : requestSize target32 (List.replicate (2 ^ 25) (1 : UInt8)
      :: List.replicate 127 (List.replicate (2 ^ 25) 1)) = 644 := by
    rw [requestSize_eq, hsb, hlen]
    decide
  have hcs : countedSize target32 (List.replicate (2 ^ 25) (1 : UInt8)
      :: List.replicate 127 (List.replicate (2 ^ 25) 1)) = 128 := by
    rw [countedSize_eq, hsb]
    decide
  have hnul : ∀ t ∈ List.replicate (2 ^ 25) (1 : UInt8)
      :: List.replicate 127 (List.replicate (2 ^ 25) 1), (0 : UInt8) ∉ t := by
    rw [← hov, wrappedArgs]
    exact not_nul_replicate _ _
  have hwf : ∀ s ∈ wrappedArgs, (0 : UInt8) ∉ s ∧ s.length = 2 ^ 25 := by
    intro s hs
    refine ⟨not_nul_replicate 128 (2 ^ 25) s hs, ?_⟩
    rw [wrappedArgs] at hs
    rw [List.eq_of_mem_replicate hs]
    exact hbig
  have hrun := binfmt_copyargv_isolated_overrun target32 (fun _ => 4096) staleBin blankMem
    (ArgVec.ofList 64 (List.replicate (2 ^ 25) (1 : UInt8)
      :: List.replicate 127 (List.replicate (2 ^ 25) 1)))
    (List.replicate (2 ^ 25) 1) (List.replicate 127 (List.replicate (2 ^ 25) 1))
    (by decide) (fun _ _ => rfl) hnul (by rw [hlen]; decide) (by rw [hcs]; decide)
    (by decide) (by rw [hbig]; decide) (by rw [hrq, hlen, hbig]; decide)
  rw [hrq] at hrun
  refine ⟨by rw [hov, hlen], hwf, ?_⟩
  rw [binfmt_copyargv_true, hov, hrun.1, hrun.2, hlen, hsb]
  exact ⟨by decide, rfl, rfl, fun h => Except.noConfusion h⟩

/-- A call of exec in the isolated exit-hook configuration whose record is
allocated and whose argument list makes the copy of `binfmt_copyargv` leave
its buffer: exec has no result, its trace ends with the granted request, and
not every stage succeeded. -/
theorem run_overrun (C : Call) (hh : C.hook = true) (hi : C.isolated = true)
    (hp : C.recordPtr ≠ 0) (s : List UInt8) (rest : List (List UInt8))
    (haddr : C.argv.addr ≠ 0)
    (hargs : ∀ i, i ≤ (s :: rest).length → C.argv.entry i = (s :: rest)[i]?)
    (hnul : ∀ t ∈ s :: rest, (0 : UInt8) ∉ t) (hn : (s :: rest).length ≤ MAX_EXEC_ARGS)
    (hreq : 0 < countedSize C.P (s :: rest))
    (hb : C.E.kmm_malloc (requestSize C.P (s :: rest)) ≠ 0)
    (hlen : s.length + 1 < C.P.sizeMod)
    (hover : requestSize C.P (s :: rest)
      < ((s :: rest).length + 1) * C.P.ptrSize % C.P.sizeMod + (s.length + 1)) :
    C.run.ret = .error .outOfBounds ∧
    C.run.trace = [Event.kmm_zalloc C.P.binSize C.recordPtr,
      Event.kmm_malloc (requestSize C.P (s :: rest))
        (C.E.kmm_malloc (requestSize C.P (s :: rest)))] ∧
    ¬ C.AllStagesSucceed := by
  have hcopy : C.copy = binfmt_copyargv_isolated C.P C.E.kmm_malloc
      (initBin C.filename C.exports C.nexports) C.mem C.argv := by
    unfold Call.copy
    rw [hi]
    exact binfmt_copyargv_true _ _ _ _ _
  have ho := binfmt_copyargv_isolated_overrun C.P C.E.kmm_malloc
    (initBin C.filename C.exports C.nexports) C.mem C.argv s rest haddr hargs hnul hn hreq hb
    hlen hover
  have hc : C.copy.ret = .error .outOfBounds := by rw [hcopy]; exact ho.1
  have ht : C.copy.trace = [Event.kmm_malloc (requestSize C.P (s :: rest))
      (C.E.kmm_malloc (requestSize C.P (s :: rest)))] := by rw [hcopy]; exact ho.2
  rw [run_copy_stuck C hh hp _ hc, ht]
  refine ⟨rfl, rfl, ?_⟩
  intro hall
  obtain ⟨_, v, hv, _⟩ := hall.1 hh
  rw [hc] at hv
  cases hv

/-- C3 fails on the code: on a 32-bit target, in the isolated exit-hook
configuration, for the launch with the 256 entries that all hold the address
of one string of 2^24 bytes, every collaborator succeeding: the record is
allocated, kmm_malloc grants the 1284 bytes it is asked for, load_module and
exec_module would succeed on every record; not every stage up to the start
succeeds, and exec does not return ERROR: the argument transfer writes
outside its buffer and exec has no result. -/
theorem exec_overrun_no_result :
    overrunCall.hook = true ∧ overrunCall.isolated = true ∧
    (∀ b, 0 ≤ (overrunCall.E.load_module b).ret ∧ 0 ≤ (overrunCall.E.exec_module b).ret) ∧
    overrunCall.run.trace = [Event.kmm_zalloc 64 8192, Event.kmm_malloc 1284 4096] ∧
    ¬ overrunCall.AllStagesSucceed ∧
    overrunCall.run.ret ≠ .ok ERROR ∧
    overrunCall.run.ret = .error .outOfBounds := by
  have hov : overrunArgs
      = List.replicate (2 ^ 24) 1 :: List.replicate 255 (List.replicate (2 ^ 24) 1) := by
    rw [overrunArgs]
    exact List.replicate_succ _ 255
  have hbig : (List.replicate (2 ^ 24) (1 : UInt8)).length = 2 ^ 24 := List.length_replicate _ _
  have hlen : (List.replicate (2 ^ 24) (1 : UInt8)
      :: List.replicate 255 (List.replicate (2 ^ 24) 1)).length = 256 := by
    rw [List.length_cons, List.length_replicate]
  have hsb : strBytes (List.replicate (2 ^ 24) (1 : UInt8)
      :: List.replicate 255 (List.replicate (2 ^ 24) 1)) = 2 ^ 24 + 1 + 255 * (2 ^ 24 + 1) := by
    rw [strBytes_cons, strBytes_replicate, hbig]
  have hrq : requestSize target32 (List.replicate (2 ^ 24) (1 : UInt8)
      :: List.replicate 255 (List.replicate (2 ^ 24) 1)) = 1284 := by
    rw [requestSize_eq, hsb, hlen]
    decide
  have hcs : countedSize target32 (List.replicate (2 ^ 24) (1 : UInt8)
      :: List.replicate 255 (List.replicate (2 ^ 24) 1)) = 256 := by
    rw [countedSize_eq, hsb]
    decide
  have hnul : ∀ t ∈ List.replicate (2 ^ 24) (1 : UInt8)
      :: List.replicate 255 (List.replicate (2 ^ 24) 1), (0 : UInt8) ∉ t := by
    rw [← hov, overrunArgs]
    exact not_nul_replicate _ _
  have hP : overrunCall.P = target32 := rfl
  have hargs : ∀ i, i ≤ (List.replicate (2 ^ 24) (1 : UInt8)
      :: List.replicate 255 (List.replicate (2 ^ 24) 1)).length →
      overrunCall.argv.entry i = (List.replicate (2 ^ 24) (1 : UInt8)
        :: List.replicate 255 (List.replicate (2 ^ 24) 1))[i]? := by
    intro i _
    rw [← hov]
    rfl
  have hreq : 0 < countedSize overrunCall.P (List.replicate (2 ^ 24) (1 : UInt8)
      :: List.replicate 255 (List.replicate (2 ^ 24) 1)) := by
    rw [hP, hcs]
    decide
  have hover : requestSize overrunCall.P (List.replicate (2 ^ 24) (1 : UInt8)
        :: List.replicate 255 (List.replicate (2 ^ 24) 1))
      < ((List.replicate (2 ^ 24) (1 : UInt8)
        :: List.replicate 255 (List.replicate (2 ^ 24) 1)).length + 1) * overrunCall.P.ptrSize
          % overrunCall.P.sizeMod + ((List.replicate (2 ^ 24) (1 : UInt8)).length + 1) := by
    rw [hP, hrq, hlen, hbig]
    decide
  have h := run_overrun overrunCall rfl rfl (by decide) (List.replicate (2 ^ 24) 1)
    (List.replicate 255 (List.replicate (2 ^ 24) 1)) (by decide) hargs hnul
    (by rw [hlen]; decide) hreq (by decide)
    (by rw [hbig]; decide) hover
  have ht : overrunCall.run.trace = [Event.kmm_zalloc 64 8192,
      Event.kmm_malloc (requestSize target32 (List.replicate (2 ^ 24) (1 : UInt8)
        :: List.replicate 255 (List.replicate (2 ^ 24) 1))) 4096] := h.2.1
  rw [hrq] at ht
  refine ⟨rfl, rfl, fun b => ⟨Int.le_refl 0, ?_⟩, ht, h.2.2, ?_, h.1⟩
  · show (0 : Int) ≤ 7
    decide
  · rw [h.1]
    exact fun e => Except.noConfusion e

end BinfmtExec
